import Mathlib

/-!
Shallow embedding of the reconciliation core of `django-ldap-sync`
(`src/ldap3_sync/utils.py` and `src/ldap3_sync/models.py`).

Python dictionaries are modelled as association lists with dict semantics
(`insertA` replaces the value of an existing key in place, otherwise appends;
`lookupA` finds the first — and, by construction, only — binding of a key;
`eraseA` models `del d[k]`).  Machine state that Django keeps in the database
is modelled by `Store`: the table of synchronized records (`records`, each row
with its primary key `pk`, a field map, and the optional boolean `is_active`
column modelled by `active`), the `LDAPSyncRecord` table (`syncRecords`), the
next auto-assigned primary key, and a logical clock that supplies the values
of `auto_now` / `auto_now_add` timestamps (every persisted write happens at a
strictly later time).  All sync records belong to the one Django model being
synchronized, so the `content_type` column is left implicit.
-/

deriving instance DecidableEq for Except

/-- Python dict lookup `d[k]` (`none` when the key raises `KeyError`). -/
def lookupA {α β : Type} [DecidableEq α] : List (α × β) → α → Option β
  | [], _ => none
  | (k1, v1) :: rest, k => if k1 = k then some v1 else lookupA rest k

/-- Python dict assignment `d[k] = v`: replace the binding in place when the
key exists, otherwise append a fresh binding. -/
def insertA {α β : Type} [DecidableEq α] : List (α × β) → α → β → List (α × β)
  | [], k, v => [(k, v)]
  | (k1, v1) :: rest, k, v =>
    if k1 = k then (k, v) :: rest else (k1, v1) :: insertA rest k v

/-- Python dict deletion `del d[k]`: remove the (unique) binding of `k`. -/
def eraseA {α β : Type} [DecidableEq α] : List (α × β) → α → List (α × β)
  | [], _ => []
  | (k1, v1) :: rest, k => if k1 = k then rest else (k1, v1) :: eraseA rest k

/-- A unique-name value: the value of the unique identifying field of a record
or entry.  `Option` because a mapped LDAP attribute that is present but empty
maps to Python `None` (see `generate_value_map`). -/
abbrev UName := Option String

/-- A value map: Django model field name to mapped scalar value
(`utils.py:generate_value_map` output). -/
abbrev ValueMap := List (String × Option String)

/-- A raw LDAP attribute value: either a plain scalar or a multi-valued
container (Python list / tuple). -/
inductive RawValue where
  | scalar : Option String → RawValue
  | multi : List String → RawValue
deriving DecidableEq, Repr

/-- One element of `connection.response`: its ldap3 `type` discriminator, its
distinguished name `dn`, and its raw attribute dictionary. -/
structure LdapObject where
  type : String
  dn : String
  attributes : List (String × RawValue)
deriving DecidableEq, Repr

/-- A persisted row of the synchronized Django model: primary key, field map,
and the optional `is_active` column (meaningful only when the model exposes
it, cf. `Config.model_has_is_active`). -/
structure DRecord where
  pk : Nat
  fields : ValueMap
  active : Bool
deriving DecidableEq, Repr

/-- A row of the `LDAPSyncRecord` table (`models.py:21-40`): generic link from
the synchronized record (`object_id`) to its `distinguished_name`, with
`created_at` (`auto_now_add`) and `updated_at` (`auto_now`) timestamps. -/
structure SyncRecord where
  object_id : Nat
  distinguished_name : String
  created_at : Nat
  updated_at : Nat
deriving DecidableEq, Repr

/-- The local relational store visible to one reconciliation pass. -/
structure Store where
  records : List DRecord
  syncRecords : List SyncRecord
  nextPk : Nat
  clock : Nat
deriving DecidableEq, Repr

/-- The removal action constants `NOTHING`, `SUSPEND`, `DELETE`
(`utils.py:16-18`).  A caller-supplied callable is not modelled. -/
inductive RemovalAction where
  | nothing
  | suspend
  | delete
deriving DecidableEq, Repr

/-- The configuration of a `Synchronizer` (constructor arguments,
`utils.py:24-58`), restricted to what `sync()` reads. -/
structure Config where
  attribute_map : List (String × String)
  unique_name_field : String
  exempt_unique_names : List UName
  removal_action : RemovalAction
  bulk_create_chunk_size : Nat
  model_has_is_active : Bool
deriving DecidableEq, Repr

/-- `getattr(model, field)` for a field that the model defines; a genuinely
missing attribute would raise `AttributeError` in Python, which `sync()` never
triggers on the fields it reads (they come from the value map or from the
unique-name field of records loaded from the store), so the embedding returns
`none` in that unreachable case. -/
def fieldOf (fields : ValueMap) (f : String) : UName :=
  (lookupA fields f).getD none

/-- `getattr(record, field)` on a persisted record. -/
def dgetattr (r : DRecord) (f : String) : UName :=
  fieldOf r.fields f

/-- The errors that abort a pass uncaught: a `KeyError` from a dict lookup and
`MultipleObjectsReturned` from `LDAPSyncRecord.objects.get`. -/
inductive SyncErr where
  | keyError
  | multipleResults
deriving DecidableEq, Repr

/-- A `logger.error` event for a skipped entry: the entry's distinguished name
and the missing LDAP attribute (`utils.py:166`). -/
abbrev LogEvent := String × String

/-- Reduction of a raw attribute value performed by `generate_value_map`
(`utils.py:284-290`): a list or tuple is reduced to its first element, and an
empty container becomes Python `None` rather than an error. -/
def reduceRaw : RawValue → Option String
  | RawValue.scalar v => v
  | RawValue.multi l => l.head?

/-- The loop body of `Synchronizer.generate_value_map` (`utils.py:275-291`)
with the value map built so far as accumulator.  The first `(ldap_attr,
model_attr)` pair whose `ldap_attr` is absent from the raw attributes raises
`MissingLdapField(ldap_attr)`. -/
def gvmGo (ldap_attribute_values : List (String × RawValue)) :
    List (String × String) → ValueMap → Except String ValueMap
  | [], value_map => Except.ok value_map
  | (ldap_attr, model_attr) :: rest, value_map =>
    match lookupA ldap_attribute_values ldap_attr with
    | none => Except.error ldap_attr
    | some rv => gvmGo ldap_attribute_values rest (insertA value_map model_attr (reduceRaw rv))

/-- `Synchronizer.generate_value_map` (`utils.py:275-291`). -/
def generate_value_map (attribute_map : List (String × String))
    (ldap_attribute_values : List (String × RawValue)) : Except String ValueMap :=
  gvmGo ldap_attribute_values attribute_map []

/-- `Synchronizer.will_model_change` (`utils.py:242-248`). -/
def will_model_change (value_map : ValueMap) (user_model : DRecord) : Bool :=
  value_map.any (fun p => !(decide (dgetattr user_model p.1 = p.2)))

/-- `Synchronizer.apply_value_map` (`utils.py:267-273`): `setattr` for every
pair of the value map.  On a plain Django model instance `setattr` succeeds
for any attribute name, so the `UnableToApplyValueMapError` branch is dead in
this model. -/
def apply_value_map (value_map : ValueMap) (user_model : DRecord) : DRecord :=
  { user_model with fields := value_map.foldl (fun fs p => insertA fs p.1 p.2) user_model.fields }

/-- `Synchronizer.exempt_unique_name` (`utils.py:117-122`).  Note that
`sync()` never calls this predicate. -/
def exempt_unique_name (cfg : Config) (unique_name : UName) : Bool :=
  decide (unique_name ∈ cfg.exempt_unique_names)

/-- `django_object.save()` on an already-persisted record: update the row with
the same primary key. -/
def saveRecord (s : Store) (r : DRecord) : Store :=
  { s with records := s.records.map (fun r1 => if r1.pk = r.pk then r else r1) }

/-- `LDAPSyncRecord(obj=..., distinguished_name=...).save()`
(`utils.py:194`): insert a fresh row; `auto_now_add` and `auto_now` both take
the current time. -/
def createSyncRecord (s : Store) (pk : Nat) (dn : String) : Store :=
  { s with
    syncRecords := s.syncRecords ++ [{ object_id := pk, distinguished_name := dn,
                                       created_at := s.clock, updated_at := s.clock }],
    clock := s.clock + 1 }

/-- Saving an existing sync record with a rewritten distinguished name
(`utils.py:190-192`): `auto_now` touches `updated_at`. -/
def saveSyncDn (s : Store) (pk : Nat) (dn : String) : Store :=
  { s with
    syncRecords := s.syncRecords.map (fun sr =>
      if sr.object_id = pk then
        { sr with distinguished_name := dn, updated_at := s.clock }
      else sr),
    clock := s.clock + 1 }

/-- Structural worker for `chunksOf`: the fuel bounds the number of slices and
is never exhausted when it is at least the list length. -/
def chunksOfGo {α : Type} (n : Nat) : Nat → List α → List (List α)
  | _, [] => []
  | 0, _ :: _ => []
  | fuel + 1, x :: xs => (x :: xs.take (n - 1)) :: chunksOfGo n fuel (xs.drop (n - 1))

/-- Consecutive slices `l[i:i+n]` for `i = 0, n, 2n, ...`
(`utils.py:255,263`). -/
def chunksOf {α : Type} (n : Nat) (l : List α) : List (List α) :=
  chunksOfGo n l.length l

/-- `Model.objects.bulk_create(unsaved)` for the synchronized model: each
staged instance is inserted with the next auto-assigned primary key. -/
def bulk_create (s : Store) (unsaved : List ValueMap) : Store :=
  unsaved.foldl
    (fun st vm =>
      { st with records := st.records ++ [{ pk := st.nextPk, fields := vm, active := true }],
                nextPk := st.nextPk + 1 })
    s

/-- `Synchronizer.chunked_bulk_create` for the synchronized model
(`utils.py:250-256`). -/
def chunked_bulk_create (s : Store) (unsaved_models : List ValueMap) (chunk_size : Nat) : Store :=
  (chunksOf chunk_size unsaved_models).foldl (fun st chunk => bulk_create st chunk) s

/-- `Model.objects.bulk_create` for `LDAPSyncRecord` instances (each carries
the target record's pk and a distinguished name); database-side `auto_now_add`
assigns the timestamps. -/
def bulk_create_sync (s : Store) (items : List (Nat × String)) : Store :=
  items.foldl (fun st p => createSyncRecord st p.1 p.2) s

/-- `Synchronizer.chunked_bulk_create` applied to the sync-record model
(`utils.py:213`). -/
def chunked_bulk_create_sync (s : Store) (items : List (Nat × String)) (chunk_size : Nat) : Store :=
  (chunksOf chunk_size items).foldl (fun st chunk => bulk_create_sync st chunk) s

/-- `Synchronizer.chunked_just_saved` (`utils.py:258-265`): one
`filter(field__in=chunk)` query per chunk, results concatenated in chunk
order. -/
def chunked_just_saved (records : List DRecord) (field : String)
    (unique_names : List UName) (chunk_size : Nat) : List DRecord :=
  (chunksOf chunk_size unique_names).foldl
    (fun results chunk => results ++ records.filter (fun r => decide (dgetattr r field ∈ chunk)))
    []

/-- `Synchronizer.get_django_objects` (`utils.py:293-301`): every row of the
synchronized model, in table order. -/
def get_django_objects (s : Store) : List DRecord :=
  s.records

/-- The derived `django_objects` dictionary (`utils.py:74-77`): unique-name
value to model instance, built with dict semantics (a later record with the
same unique-name value overrides an earlier one). -/
def deriveDjangoObjects (cfg : Config) (s : Store) : List (UName × DRecord) :=
  (get_django_objects s).foldl (fun d r => insertA d (dgetattr r cfg.unique_name_field) r) []

/-- The mutable per-pass state of `Synchronizer.sync` (`utils.py:44-52`):
the store connection, the remaining unmatched `django_objects` dictionary
(each value a snapshot that coincides with the stored row until it is
matched), `uniquename_dn_map`, the staged `unsaved_models`, and
`updated_model_counter`. -/
structure RunState where
  store : Store
  djangoObjects : List (UName × DRecord)
  uniquename_dn_map : List (UName × String)
  unsaved : List ValueMap
  updated : Nat
deriving DecidableEq, Repr

/-- The per-entry body of the `for ldap_object in self.ldap_objects()` loop of
`Synchronizer.sync` (`utils.py:159-201`).  Returns the next state and the
`logger.error` events emitted (one per skipped entry).  The defensive
re-reduction of a list-valued unique name (`utils.py:172-175`) is dead in this
model because `generate_value_map` already reduced every container. -/
def processOne (cfg : Config) (st : RunState) (ldap_object : LdapObject) :
    Except SyncErr (RunState × List LogEvent) :=
  if ldap_object.type ≠ "searchResEntry" then Except.ok (st, [])
  else
    match generate_value_map cfg.attribute_map ldap_object.attributes with
    | Except.error fld => Except.ok (st, [(ldap_object.dn, fld)])
    | Except.ok value_map =>
      match lookupA value_map cfg.unique_name_field with
      | none => Except.error SyncErr.keyError
      | some unique_name =>
        let distinguished_name := ldap_object.dn
        let st1 : RunState :=
          { st with uniquename_dn_map := insertA st.uniquename_dn_map unique_name distinguished_name }
        match lookupA st1.djangoObjects unique_name with
        | some django_object =>
          let changed := will_model_change value_map django_object
          let django_object1 := if changed then apply_value_map value_map django_object else django_object
          let store1 := if changed then saveRecord st1.store django_object1 else st1.store
          let upd := if changed then st1.updated + 1 else st1.updated
          match store1.syncRecords.filter (fun sr => sr.object_id = django_object1.pk) with
          | [] =>
            Except.ok ({ st1 with store := createSyncRecord store1 django_object1.pk distinguished_name,
                                   djangoObjects := eraseA st1.djangoObjects unique_name,
                                   updated := upd }, [])
          | [sr] =>
            let store2 :=
              if sr.distinguished_name ≠ distinguished_name then
                saveSyncDn store1 django_object1.pk distinguished_name
              else store1
            Except.ok ({ st1 with store := store2,
                                   djangoObjects := eraseA st1.djangoObjects unique_name,
                                   updated := upd }, [])
          | _ => Except.error SyncErr.multipleResults
        | none =>
          Except.ok ({ st1 with unsaved := st1.unsaved ++ [value_map] }, [])

/-- The whole entry loop of `sync()`, accumulating log events. -/
def processAll (cfg : Config) (st : RunState) (logs : List LogEvent) :
    List LdapObject → Except SyncErr (RunState × List LogEvent)
  | [] => Except.ok (st, logs)
  | o :: os =>
    match processOne cfg st o with
    | Except.error e => Except.error e
    | Except.ok (st1, evs) => processAll cfg st1 (logs ++ evs) os

/-- One step of building `new_ldap_sync_models` (`utils.py:212`): look up the
just-saved record's unique-name value in `uniquename_dn_map` (`KeyError` if
absent, which aborts the pass) and pair its primary key with the found
distinguished name. -/
def syncPairFor (cfg : Config) (m : List (UName × String)) (acc : List (Nat × String))
    (r : DRecord) : Except SyncErr (List (Nat × String)) :=
  match lookupA m (dgetattr r cfg.unique_name_field) with
  | none => Except.error SyncErr.keyError
  | some dn => Except.ok (acc ++ [(r.pk, dn)])

/-- The post-loop persistence phase of `sync()` (`utils.py:202-213`): chunked
bulk create of the staged models, re-fetch of their assigned identities keyed
on the unique field (the unchunked query at `utils.py:209` is overwritten on
the next line and has no effect on state), and chunked bulk create of their
sync records with the distinguished name captured in `uniquename_dn_map`. -/
def bulkPhase (cfg : Config) (st : RunState) : Except SyncErr RunState :=
  let store1 := chunked_bulk_create st.store st.unsaved cfg.bulk_create_chunk_size
  let filter_value := st.unsaved.map (fun u => fieldOf u cfg.unique_name_field)
  let just_saved_models :=
    chunked_just_saved store1.records cfg.unique_name_field filter_value cfg.bulk_create_chunk_size
  match just_saved_models.foldlM (syncPairFor cfg st.uniquename_dn_map) [] with
  | Except.error e => Except.error e
  | Except.ok new_ldap_sync_models =>
    Except.ok { st with store := chunked_bulk_create_sync store1 new_ldap_sync_models cfg.bulk_create_chunk_size }

/-- The removal phase of `sync()` (`utils.py:221-238`).  `SUSPEND` with an
`is_active` attribute executes `Model.objects.in_bulk(ids).update(is_active=False)`
(`utils.py:232`): `in_bulk` returns a Python dictionary mapping primary keys
to instances, and `dict.update(is_active=False)` only adds the key
`is_active` to that ephemeral dictionary — no queryset update and no save is
issued, so the store is unchanged.  Without the attribute the branch only
logs.  Note that `exempt_unique_names` is not consulted: the
`difference_update` call is commented out in the source (`utils.py:224`). -/
def removalPhase (cfg : Config) (st : RunState) : Store :=
  let existing_unique_names := st.djangoObjects.map Prod.fst
  let existing_model_ids :=
    ((st.djangoObjects.map Prod.snd).filter
      (fun r => decide (dgetattr r cfg.unique_name_field ∈ existing_unique_names))).map
      (fun r => r.pk)
  match cfg.removal_action with
  | RemovalAction.nothing => st.store
  | RemovalAction.suspend =>
    if cfg.model_has_is_active then
      -- in_bulk(existing_model_ids).update(is_active=False): a dict-only
      -- mutation, the rows keep their is_active values.
      st.store
    else
      -- No is_active attribute: the branch only logs.
      st.store
  | RemovalAction.delete =>
    { st.store with
      records := st.store.records.filter (fun r => !(decide (r.pk ∈ existing_model_ids))) }

/-- The externally observable outcome of one pass: final store, the two
counters reported by the run, the pass's unique-name map, and the missing
field log events. -/
structure SyncResult where
  store : Store
  updated : Nat
  created : Nat
  uniquename_dn_map : List (UName × String)
  logs : List LogEvent
deriving DecidableEq, Repr

/-- `Synchronizer.sync` (`utils.py:157-240`) for one pass whose
`django_objects` is derived from the store (`utils.py:74-77`); the run state
is fresh per pass, matching the spec's ephemeral Synchronizer Run State.
`created` is the reported count `len(self.unsaved_models)` (`utils.py:218`). -/
def sync (cfg : Config) (ldap_objects : List LdapObject) (s : Store) : Except SyncErr SyncResult :=
  let st0 : RunState :=
    { store := s, djangoObjects := deriveDjangoObjects cfg s,
      uniquename_dn_map := [], unsaved := [], updated := 0 }
  match processAll cfg st0 [] ldap_objects with
  | Except.error e => Except.error e
  | Except.ok (st1, logs) =>
    match bulkPhase cfg st1 with
    | Except.error e => Except.error e
    | Except.ok st2 =>
      Except.ok { store := removalPhase cfg st2, updated := st2.updated,
                  created := st2.unsaved.length,
                  uniquename_dn_map := st2.uniquename_dn_map, logs := logs }

/-- A directory holding the full result set of the fixed base and filter, used
to model a server that honours the simple paged results control. -/
structure Directory where
  entries : List LdapObject
deriving DecidableEq, Repr

/-- One paged search request: the server returns at most `paged_size` entries
starting at the offset encoded by the cookie, together with the continuation
cookie of the paged results control (`none`, i.e. an empty — falsy — cookie,
once the result set is exhausted). -/
def serverSearch (d : Directory) (paged_size : Nat) (cookie : Option Nat) :
    List LdapObject × Option Nat :=
  let off := cookie.getD 0
  let page := (d.entries.drop off).take paged_size
  let next := off + paged_size
  (page, if next < d.entries.length then some next else none)

/-- The `while cookie:` loop of `DePagingLDAPSearch.search`
(`utils.py:330-333`), with fuel for termination (the server model advances the
offset on every request, so the fuel `d.entries.length + 1` is never
exhausted when `paged_size ≥ 1`). -/
def depageLoop (d : Directory) (paged_size : Nat) :
    Nat → Option Nat → List LdapObject → List LdapObject
  | _, none, results => results
  | 0, some _, results => results
  | fuel + 1, some c, results =>
    let req := serverSearch d paged_size (some c)
    depageLoop d paged_size fuel req.2 (results ++ req.1)

/-- `DePagingLDAPSearch.search` (`utils.py:314-334`): `kw_paged_size` models a
`paged_size` keyword argument (deleted from `kwargs` and used for the
requests), any caller-supplied `paged_cookie` is discarded, and the
continuation loop is entered only when the first response holds more than
`self.paged_size` entries (`utils.py:328`). -/
def depage_search (d : Directory) (self_paged_size : Nat) (kw_paged_size : Option Nat) :
    List LdapObject :=
  let paged_size := kw_paged_size.getD self_paged_size
  let req := serverSearch d paged_size none
  let results := req.1
  if results.length > self_paged_size then
    depageLoop d paged_size (d.entries.length + 1) req.2 results
  else results

/-! ### Helper definitions for stating theorems about `sync`

These definitions are proof-side conveniences only: `evm` and `ename` project
a well-formed entry to its value map and unique-name value, `EntryShape`,
`EntriesWF` and `StoreWF` are the (decidable) well-formedness assumptions of
the general theorems, and `postRecord`, `syncXform`, `countUpdated` and
`stateAfter` give the closed form of the run state that the entry loop of
`sync()` produces, proved equal to the loop output in `processAll_spec`. -/

/-- The value map of a well-formed entry (`[]` when the mapper fails). -/
def evm (cfg : Config) (o : LdapObject) : ValueMap :=
  ((generate_value_map cfg.attribute_map o.attributes).toOption).getD []

/-- The unique-name value of a well-formed entry. -/
def ename (cfg : Config) (o : LdapObject) : UName :=
  (lookupA (evm cfg o) cfg.unique_name_field).getD none

/-- A well-formed entry: a genuine search hit whose attributes map without a
missing field and whose value map binds the unique-name field. -/
def EntryShape (cfg : Config) (o : LdapObject) : Prop :=
  o.type = "searchResEntry" ∧
  (generate_value_map cfg.attribute_map o.attributes).toOption.isSome = true ∧
  (lookupA (evm cfg o) cfg.unique_name_field).isSome = true

instance (cfg : Config) (o : LdapObject) : Decidable (EntryShape cfg o) := by
  unfold EntryShape
  infer_instance

/-- A well-formed remote entry set: every entry well formed, unique-name
values pairwise distinct (the spec's "unique within the reconciliation
scope"). -/
def EntriesWF (cfg : Config) (objs : List LdapObject) : Prop :=
  (∀ o ∈ objs, EntryShape cfg o) ∧ (objs.map (ename cfg)).Nodup

instance (cfg : Config) (objs : List LdapObject) : Decidable (EntriesWF cfg objs) := by
  unfold EntriesWF
  infer_instance

/-- The unique-name values of the records of a store, in table order. -/
def recNames (cfg : Config) (s : Store) : List UName :=
  s.records.map (fun r => dgetattr r cfg.unique_name_field)

/-- Store well-formedness: unique-name values unique across records (the
configured unique identifying field), primary keys unique and below the next
auto-assigned key, and at most one sync record per record identity, likewise
below the next key. -/
def StoreWF (cfg : Config) (s : Store) : Prop :=
  (recNames cfg s).Nodup ∧
  (s.records.map (fun r => r.pk)).Nodup ∧
  (∀ r ∈ s.records, r.pk < s.nextPk) ∧
  (s.syncRecords.map (fun sr => sr.object_id)).Nodup ∧
  (∀ sr ∈ s.syncRecords, sr.object_id < s.nextPk)

instance (cfg : Config) (s : Store) : Decidable (StoreWF cfg s) := by
  unfold StoreWF
  infer_instance

/-- The record a unique-name value matches in the derived dictionary. -/
def pickRecord (cfg : Config) (s : Store) (u : UName) : Option DRecord :=
  lookupA (deriveDjangoObjects cfg s) u

/-- Closed form of a stored record after the entry loop has processed the
given entries: the entry carrying the record's unique-name value (if any) is
applied when it would change the record. -/
def postRecord (cfg : Config) (objs : List LdapObject) (r : DRecord) : DRecord :=
  match objs.find? (fun o => decide (ename cfg o = dgetattr r cfg.unique_name_field)) with
  | some o => if will_model_change (evm cfg o) r then apply_value_map (evm cfg o) r else r
  | none => r

/-- Closed form of the effect of one matched entry on the sync-record table
and the clock (mirrors `utils.py:186-194`). -/
def syncXform (cfg : Config) (s : Store) (acc : List SyncRecord × Nat) (o : LdapObject) :
    List SyncRecord × Nat :=
  match pickRecord cfg s (ename cfg o) with
  | none => acc
  | some r =>
    match acc.1.filter (fun sr => sr.object_id = r.pk) with
    | [] =>
      (acc.1 ++ [{ object_id := r.pk, distinguished_name := o.dn,
                   created_at := acc.2, updated_at := acc.2 }], acc.2 + 1)
    | sr :: _ =>
      if sr.distinguished_name ≠ o.dn then
        (acc.1.map (fun s1 =>
          if s1.object_id = r.pk then
            { s1 with distinguished_name := o.dn, updated_at := acc.2 }
          else s1), acc.2 + 1)
      else acc

/-- Closed form of `updated_model_counter` after the entry loop. -/
def countUpdated (cfg : Config) (s : Store) (objs : List LdapObject) : Nat :=
  (objs.filter (fun o =>
    match pickRecord cfg s (ename cfg o) with
    | some r => will_model_change (evm cfg o) r
    | none => false)).length

/-- Closed form of the whole run state after the entry loop of `sync()` has
processed the given well-formed entries against store `s`. -/
def stateAfter (cfg : Config) (s : Store) (objs : List LdapObject) : RunState :=
  { store := { records := s.records.map (postRecord cfg objs),
               syncRecords := (objs.foldl (syncXform cfg s) (s.syncRecords, s.clock)).1,
               nextPk := s.nextPk,
               clock := (objs.foldl (syncXform cfg s) (s.syncRecords, s.clock)).2 },
    djangoObjects := (deriveDjangoObjects cfg s).filter
      (fun p => !(decide (p.1 ∈ objs.map (ename cfg)))),
    uniquename_dn_map := objs.map (fun o => (ename cfg o, o.dn)),
    unsaved := (objs.filter (fun o => !(decide (ename cfg o ∈ recNames cfg s)))).map (evm cfg),
    updated := countUpdated cfg s objs }

/-- The records appended by a bulk create of the staged value maps, with
primary keys assigned from `pk0`. -/
def mkNew (pk0 : Nat) : List ValueMap → List DRecord
  | [] => []
  | vm :: rest => { pk := pk0, fields := vm, active := true } :: mkNew (pk0 + 1) rest

/-- The sync records appended by a bulk create of `(pk, dn)` pairs, with
timestamps assigned from the clock `ck` on. -/
def mkSyncFrom (ck : Nat) : List (Nat × String) → List SyncRecord
  | [] => []
  | (pk, dn) :: rest =>
    { object_id := pk, distinguished_name := dn, created_at := ck, updated_at := ck }
      :: mkSyncFrom (ck + 1) rest

/-- The value maps staged for creation by a pass over the given entries. -/
def stagedVMs (cfg : Config) (s : Store) (objs : List LdapObject) : List ValueMap :=
  (objs.filter (fun o => !(decide (ename cfg o ∈ recNames cfg s)))).map (evm cfg)

/-- The `(pk, distinguished_name)` pairs of the sync records bulk-created for
the staged records, with primary keys from `pk0` and distinguished names from
the pass's unique-name map. -/
def stagedPairs (cfg : Config) (m : List (UName × String)) : Nat → List ValueMap → List (Nat × String)
  | _, [] => []
  | pk0, vm :: rest =>
    (pk0, (lookupA m (fieldOf vm cfg.unique_name_field)).getD "")
      :: stagedPairs cfg m (pk0 + 1) rest

/-- Closed form of the store after the entry loop and the bulk-create phase of
`sync()` (before the removal phase). -/
def finalStore (cfg : Config) (s : Store) (objs : List LdapObject) : Store :=
  { records := (stateAfter cfg s objs).store.records
      ++ mkNew (stateAfter cfg s objs).store.nextPk (stagedVMs cfg s objs),
    syncRecords := (stateAfter cfg s objs).store.syncRecords
      ++ mkSyncFrom (stateAfter cfg s objs).store.clock
          (stagedPairs cfg (objs.map (fun o => (ename cfg o, o.dn)))
            (stateAfter cfg s objs).store.nextPk (stagedVMs cfg s objs)),
    nextPk := (stateAfter cfg s objs).store.nextPk + (stagedVMs cfg s objs).length,
    clock := (stateAfter cfg s objs).store.clock + (stagedVMs cfg s objs).length }

/-- Closed form of the run state after the entry loop and the bulk-create
phase of `sync()`. -/
def afterBulk (cfg : Config) (s : Store) (objs : List LdapObject) : RunState :=
  { stateAfter cfg s objs with store := finalStore cfg s objs }

/-- A store with no records at all. -/
def emptyStore : Store :=
  { records := [], syncRecords := [], nextPk := 0, clock := 0 }

/-! ### Concrete instances for the paged-search and removal-phase claims -/

/-- A directory holding a 14-entry result set. -/
def dir14 : Directory :=
  ⟨(List.range 14).map (fun i => ⟨"searchResEntry", "cn=u" ++ toString i, []⟩)⟩

/-- Configuration with `alice` exempt and removal action `DELETE`. -/
def exemptCfg : Config :=
  { attribute_map := [("uid", "uid"), ("mail", "email")], unique_name_field := "uid",
    exempt_unique_names := [some "alice"], removal_action := RemovalAction.delete,
    bulk_create_chunk_size := 50, model_has_is_active := true }

/-- A store holding the single record `alice`. -/
def aliceStore : Store :=
  { records := [{ pk := 0, fields := [("uid", some "alice"), ("email", some "alice@example.org")],
                  active := true }],
    syncRecords := [], nextPk := 1, clock := 0 }

/-- Configuration with removal action `SUSPEND` on a model that exposes
`is_active`. -/
def suspendCfg : Config :=
  { attribute_map := [("uid", "uid"), ("mail", "email")], unique_name_field := "uid",
    exempt_unique_names := [], removal_action := RemovalAction.suspend,
    bulk_create_chunk_size := 50, model_has_is_active := true }


/-- Attribute correspondence used by the C7 witness. -/
def wAm : List (String × String) := [("uid", "uid"), ("mail", "email")]

/-- Raw attributes used by the C7 witness: a multi-valued `uid` and a
present-but-empty `mail`. -/
def wRaw : List (String × RawValue) :=
  [("uid", RawValue.multi ["bob", "bob2"]), ("mail", RawValue.multi [])]

/-- Raw attributes with `mail` absent, used by the C7 witness. -/
def wRawMissing : List (String × RawValue) := [("uid", RawValue.scalar (some "bob"))]

/-- Configuration with removal action `NOTHING`, used by the update/rename and
idempotence witnesses. -/
def updCfg : Config :=
  { attribute_map := [("uid", "uid"), ("mail", "email")], unique_name_field := "uid",
    exempt_unique_names := [], removal_action := RemovalAction.nothing,
    bulk_create_chunk_size := 50, model_has_is_active := false }

/-- The pre-existing record `bob` with a stale email, used by the C4 witness. -/
def bobRec : DRecord :=
  { pk := 0, fields := [("uid", some "bob"), ("email", some "old@example.org")],
    active := true }

/-- A store holding only `bobRec`. -/
def bobStore : Store :=
  { records := [bobRec], syncRecords := [], nextPk := 1, clock := 0 }

/-- The remote entry for `bob` carrying a fresh email. -/
def bobEntry : LdapObject :=
  ⟨"searchResEntry", "cn=bob",
    [("uid", RawValue.scalar (some "bob")), ("mail", RawValue.scalar (some "new@example.org"))]⟩

/-- The pre-existing cross-reference row linking `bob` to its old
distinguished name, used by the C9 witness. -/
def renSr : SyncRecord :=
  { object_id := 0, distinguished_name := "cn=bob,ou=old", created_at := 0, updated_at := 0 }

/-- A store holding `bobRec` linked via `renSr`, with the clock past the
row's timestamps. -/
def renStore : Store :=
  { records := [bobRec], syncRecords := [renSr], nextPk := 1, clock := 1 }

/-- A second remote entry, used by the C5 and C6 witnesses. -/
def carolEntry : LdapObject :=
  ⟨"searchResEntry", "cn=carol",
    [("uid", RawValue.scalar (some "carol")), ("mail", RawValue.scalar (some "carol@example.org"))]⟩

/-- A remote entry lacking the mapped `mail` attribute, used by the C8
witness. -/
def badEntry : LdapObject :=
  ⟨"searchResEntry", "cn=dave", [("uid", RawValue.scalar (some "dave"))]⟩


/-! ### Association list lemmas -/

theorem lookupA_insertA_self {α β : Type} [DecidableEq α] (l : List (α × β)) (k : α) (v : β) :
    lookupA (insertA l k v) k = some v := by
  induction l with
  | nil => simp [insertA, lookupA]
  | cons p rest ih =>
    obtain ⟨k1, v1⟩ := p
    by_cases h : k1 = k
    · simp [insertA, lookupA, h]
    · simp [insertA, lookupA, h, ih]

theorem lookupA_insertA_ne {α β : Type} [DecidableEq α] (l : List (α × β)) (k k1 : α) (v : β)
    (h : k1 ≠ k) : lookupA (insertA l k v) k1 = lookupA l k1 := by
  have hk : k ≠ k1 := Ne.symm h
  induction l with
  | nil => simp [insertA, lookupA, hk]
  | cons p rest ih =>
    obtain ⟨k2, v2⟩ := p
    by_cases h2 : k2 = k
    · subst h2
      simp [insertA, lookupA, hk]
    · by_cases h3 : k2 = k1 <;> simp [insertA, lookupA, h2, h3, ih, h]

theorem mem_keys_insertA {α β : Type} [DecidableEq α] (l : List (α × β)) (k a : α) (v : β) :
    a ∈ (insertA l k v).map Prod.fst ↔ a = k ∨ a ∈ l.map Prod.fst := by
  induction l with
  | nil => simp [insertA]
  | cons p rest ih =>
    obtain ⟨k1, v1⟩ := p
    by_cases h : k1 = k
    · subst h
      simp [insertA]
    · simp [insertA, h, ih]
      tauto

theorem keys_insertA_nodup {α β : Type} [DecidableEq α] (l : List (α × β)) (k : α) (v : β)
    (h : (l.map Prod.fst).Nodup) : ((insertA l k v).map Prod.fst).Nodup := by
  induction l with
  | nil => simp [insertA]
  | cons p rest ih =>
    obtain ⟨k1, v1⟩ := p
    simp only [List.map_cons, List.nodup_cons] at h
    by_cases h1 : k1 = k
    · subst h1
      simpa [insertA] using h
    · simp only [insertA, h1, if_false, List.map_cons, List.nodup_cons]
      exact ⟨fun hmem => by
        rcases (mem_keys_insertA rest k k1 v).1 hmem with h2 | h2
        · exact h1 h2
        · exact h.1 h2, ih h.2⟩

theorem lookupA_of_mem_nodup {α β : Type} [DecidableEq α] {l : List (α × β)} {k : α} {v : β}
    (hn : (l.map Prod.fst).Nodup) (hm : (k, v) ∈ l) : lookupA l k = some v := by
  induction l with
  | nil => simp at hm
  | cons p rest ih =>
    obtain ⟨k1, v1⟩ := p
    simp only [List.map_cons, List.nodup_cons] at hn
    rcases List.mem_cons.1 hm with h | h
    · cases h
      simp [lookupA]
    · have hk : k1 ≠ k := by
        intro h1
        subst h1
        exact hn.1 (List.mem_map.2 ⟨(k1, v), h, rfl⟩)
      simp [lookupA, hk, ih hn.2 h]

theorem insertA_of_not_mem {α β : Type} [DecidableEq α] {l : List (α × β)} {k : α} (v : β)
    (h : k ∉ l.map Prod.fst) : insertA l k v = l ++ [(k, v)] := by
  induction l with
  | nil => simp [insertA]
  | cons p rest ih =>
    obtain ⟨k1, v1⟩ := p
    simp only [List.map_cons, List.mem_cons] at h
    push_neg at h
    simp [insertA, Ne.symm h.1, ih h.2]

theorem eraseA_of_not_mem {α β : Type} [DecidableEq α] {l : List (α × β)} {k : α}
    (h : k ∉ l.map Prod.fst) : eraseA l k = l := by
  induction l with
  | nil => rfl
  | cons p rest ih =>
    obtain ⟨k1, v1⟩ := p
    simp only [List.map_cons, List.mem_cons] at h
    push_neg at h
    simp [eraseA, Ne.symm h.1, ih h.2]

theorem lookupA_eq_none_of_not_mem {α β : Type} [DecidableEq α] {l : List (α × β)} {k : α}
    (h : k ∉ l.map Prod.fst) : lookupA l k = none := by
  induction l with
  | nil => rfl
  | cons p rest ih =>
    obtain ⟨k1, v1⟩ := p
    simp only [List.map_cons, List.mem_cons] at h
    push_neg at h
    simp [lookupA, Ne.symm h.1, ih h.2]

theorem lookupA_isSome_mem {α β : Type} [DecidableEq α] {l : List (α × β)} {k : α} {v : β}
    (h : lookupA l k = some v) : (k, v) ∈ l ∧ k ∈ l.map Prod.fst := by
  induction l with
  | nil => simp [lookupA] at h
  | cons p rest ih =>
    obtain ⟨k1, v1⟩ := p
    by_cases h1 : k1 = k
    · subst h1
      simp [lookupA] at h
      subst h
      simp
    · simp only [lookupA, h1, if_false] at h
      have := ih h
      exact ⟨List.mem_cons_of_mem _ this.1, by simp [this.2]⟩

/-! ### `generate_value_map` lemmas -/

theorem gvmGo_ok_lookup_of_not_mem (raw : List (String × RawValue)) :
    ∀ (am : List (String × String)) (acc vm : ValueMap) (k : String),
      gvmGo raw am acc = Except.ok vm → k ∉ am.map Prod.snd →
      lookupA vm k = lookupA acc k := by
  intro am
  induction am with
  | nil =>
    intro acc vm k h _
    simp [gvmGo] at h
    subst h
    rfl
  | cons p rest ih =>
    intro acc vm k h hk
    obtain ⟨la, ma⟩ := p
    simp only [List.map_cons, List.mem_cons] at hk
    push_neg at hk
    simp only [gvmGo] at h
    cases hraw : lookupA raw la with
    | none => rw [hraw] at h; exact absurd h (by simp)
    | some rv =>
      rw [hraw] at h
      rw [ih _ _ _ h hk.2]
      exact lookupA_insertA_ne _ _ _ _ hk.1

theorem gvmGo_ok_mem (raw : List (String × RawValue)) :
    ∀ (am : List (String × String)) (acc vm : ValueMap),
      gvmGo raw am acc = Except.ok vm → (am.map Prod.snd).Nodup →
      ∀ (la ma : String) (rv : RawValue), (la, ma) ∈ am → lookupA raw la = some rv →
        lookupA vm ma = some (reduceRaw rv) := by
  intro am
  induction am with
  | nil => intro acc vm _ _ la ma rv hm; simp at hm
  | cons p rest ih =>
    intro acc vm h hn la ma rv hm hraw
    obtain ⟨la0, ma0⟩ := p
    simp only [List.map_cons, List.nodup_cons] at hn
    simp only [gvmGo] at h
    cases hraw0 : lookupA raw la0 with
    | none => rw [hraw0] at h; exact absurd h (by simp)
    | some rv0 =>
      rw [hraw0] at h
      rcases List.mem_cons.1 hm with h1 | h1
      · obtain ⟨h1a, h1b⟩ := Prod.mk.injEq .. ▸ h1
        subst h1a; subst h1b
        have hv : rv = rv0 := by
          rw [hraw] at hraw0
          exact (Option.some.injEq .. ▸ hraw0).symm ▸ rfl
        subst hv
        rw [gvmGo_ok_lookup_of_not_mem raw rest _ _ _ h hn.1]
        exact lookupA_insertA_self _ _ _
      · exact ih _ _ h hn.2 la ma rv h1 hraw

theorem gvmGo_error_iff (raw : List (String × RawValue)) :
    ∀ (am : List (String × String)) (acc : ValueMap),
      (∃ p ∈ am, lookupA raw p.1 = none) ↔ ∃ a, gvmGo raw am acc = Except.error a := by
  intro am
  induction am with
  | nil => intro acc; simp [gvmGo]
  | cons p rest ih =>
    intro acc
    obtain ⟨la, ma⟩ := p
    cases hraw : lookupA raw la with
    | none =>
      constructor
      · intro _; exact ⟨la, by simp [gvmGo, hraw]⟩
      · intro _; exact ⟨(la, ma), List.mem_cons_self _ _, hraw⟩
    | some rv =>
      simp only [gvmGo, hraw]
      rw [← ih (insertA acc ma (reduceRaw rv))]
      constructor
      · rintro ⟨q, hq, hql⟩
        rcases List.mem_cons.1 hq with h1 | h1
        · subst h1; rw [hraw] at hql; exact absurd hql (by simp)
        · exact ⟨q, h1, hql⟩
      · rintro ⟨q, hq, hql⟩
        exact ⟨q, List.mem_cons_of_mem _ hq, hql⟩

theorem gvmGo_error_mem (raw : List (String × RawValue)) :
    ∀ (am : List (String × String)) (acc : ValueMap) (a : String),
      gvmGo raw am acc = Except.error a → a ∈ am.map Prod.fst ∧ lookupA raw a = none := by
  intro am
  induction am with
  | nil => intro acc a h; simp [gvmGo] at h
  | cons p rest ih =>
    intro acc a h
    obtain ⟨la, ma⟩ := p
    simp only [gvmGo] at h
    cases hraw : lookupA raw la with
    | none =>
      rw [hraw] at h
      have : la = a := by simpa using h
      subst this
      exact ⟨by simp, hraw⟩
    | some rv =>
      rw [hraw] at h
      have := ih _ _ h
      exact ⟨by simp [this.1], this.2⟩

theorem gvmGo_keys_nodup (raw : List (String × RawValue)) :
    ∀ (am : List (String × String)) (acc vm : ValueMap),
      (acc.map Prod.fst).Nodup → gvmGo raw am acc = Except.ok vm →
      (vm.map Prod.fst).Nodup := by
  intro am
  induction am with
  | nil =>
    intro acc vm hn h
    simp [gvmGo] at h
    subst h
    exact hn
  | cons p rest ih =>
    intro acc vm hn h
    obtain ⟨la, ma⟩ := p
    simp only [gvmGo] at h
    cases hraw : lookupA raw la with
    | none => rw [hraw] at h; exact absurd h (by simp)
    | some rv =>
      rw [hraw] at h
      exact ih _ _ (keys_insertA_nodup _ _ _ hn) h

theorem gvm_keys_nodup {am : List (String × String)} {raw : List (String × RawValue)}
    {vm : ValueMap} (h : generate_value_map am raw = Except.ok vm) :
    (vm.map Prod.fst).Nodup :=
  gvmGo_keys_nodup raw am [] vm (by simp) h

/-! ### `apply_value_map` and `will_model_change` lemmas -/

theorem foldl_insertA_not_mem {vm : ValueMap} {k : String} :
    ∀ fs : ValueMap, k ∉ vm.map Prod.fst →
      lookupA (vm.foldl (fun fs p => insertA fs p.1 p.2) fs) k = lookupA fs k := by
  induction vm with
  | nil => intro fs _; rfl
  | cons p rest ih =>
    intro fs hk
    simp only [List.map_cons, List.mem_cons] at hk
    push_neg at hk
    simp only [List.foldl_cons]
    rw [ih _ hk.2]
    exact lookupA_insertA_ne _ _ _ _ hk.1

theorem foldl_insertA_mem_nodup {vm : ValueMap} {k : String} {v : Option String} :
    ∀ fs : ValueMap, (vm.map Prod.fst).Nodup → (k, v) ∈ vm →
      lookupA (vm.foldl (fun fs p => insertA fs p.1 p.2) fs) k = some v := by
  induction vm with
  | nil => intro fs _ hm; simp at hm
  | cons p rest ih =>
    intro fs hn hm
    simp only [List.map_cons, List.nodup_cons] at hn
    rcases List.mem_cons.1 hm with h | h
    · subst h
      simp only [List.foldl_cons]
      rw [foldl_insertA_not_mem _ hn.1]
      exact lookupA_insertA_self _ _ _
    · simp only [List.foldl_cons]
      exact ih _ hn.2 h

theorem dgetattr_apply_mem {vm : ValueMap} {r : DRecord} {k : String} {v : Option String}
    (hn : (vm.map Prod.fst).Nodup) (hm : (k, v) ∈ vm) :
    dgetattr (apply_value_map vm r) k = v := by
  simp only [dgetattr, apply_value_map, fieldOf]
  rw [foldl_insertA_mem_nodup _ hn hm]
  rfl

theorem dgetattr_apply_not_mem {vm : ValueMap} {r : DRecord} {k : String}
    (hk : k ∉ vm.map Prod.fst) :
    dgetattr (apply_value_map vm r) k = dgetattr r k := by
  simp only [dgetattr, apply_value_map, fieldOf]
  rw [foldl_insertA_not_mem _ hk]

theorem will_model_change_false_iff (vm : ValueMap) (r : DRecord) :
    will_model_change vm r = false ↔ ∀ k v, (k, v) ∈ vm → dgetattr r k = v := by
  simp only [will_model_change, List.any_eq_false, Bool.not_eq_true']
  constructor
  · intro h k v hm
    have := h (k, v) hm
    simpa using this
  · intro h p hp
    simpa using h p.1 p.2 hp

/-- C1: the paged search does NOT return the complete result set.  Against a
directory that honours the paged results control, a page holds at most
`paged_size` entries, so the continuation test
`len(self.connection.response) > self.paged_size` (`utils.py:328`) is false
after the first page and the cookie loop is never entered: a 14-entry result
set served in pages of 5 yields only the 5 entries of the first page, not the
14 entries that a single page of size 500 yields (the source's own test
`test_search_small_page` asserts 14).  This refutes the claimed equality. -/
theorem C1_depage_first_page_only :
    (depage_search dir14 5 none).length = 5 ∧
    (depage_search dir14 500 none).length = 14 ∧
    depage_search dir14 5 none ≠ depage_search dir14 500 none := by
  refine ⟨by decide, by decide, by decide⟩

/-- C2: `sync()` never consults the exemption set.  With `alice` exempt, a
store holding only the record `alice`, an empty remote entry set, and removal
action `DELETE`, the pass deletes the exempt record: the final store holds no
records at all (the `difference_update(exempt_unique_names)` call is commented
out at `utils.py:224`, and `exempt_unique_name` is never called from
`sync()`), contradicting the claim that an exempt value is never removed. -/
theorem C2_exempt_record_removed :
    exempt_unique_name exemptCfg (some "alice") = true ∧
    (sync exemptCfg [] aliceStore).map (fun res => res.store.records) = Except.ok [] := by
  exact ⟨rfl, by decide⟩

/-- C3: under `SUSPEND` on a model exposing `is_active`, an orphaned record's
flag does NOT become false.  `Model.objects.in_bulk(ids).update(is_active=False)`
(`utils.py:232`) calls `dict.update` on the mapping returned by `in_bulk`,
mutating only that ephemeral Python dictionary; no database write occurs, so
the orphaned record keeps `active = true`, contradicting the claim (and the
source's own log line, which reports the records as suspended). -/
theorem C3_suspend_does_not_suspend :
    suspendCfg.removal_action = RemovalAction.suspend ∧
    suspendCfg.model_has_is_active = true ∧
    (sync suspendCfg [] aliceStore).map (fun res => res.store.records.map (fun r => (r.pk, r.active)))
      = Except.ok [(0, true)] := by
  exact ⟨rfl, rfl, by decide⟩

/-- C7: the attribute mapper fails with `MissingLdapField(remoteAttr)` exactly
when some remote attribute named in the correspondence is absent from the raw
attributes, the reported attribute is such an absent one, a present
multi-valued container is reduced to its first element (an empty container to
the explicit no-value marker `none`) in the resulting value map, and
`reduceRaw` realizes exactly that reduction. -/
theorem C7_generate_value_map_spec (am : List (String × String))
    (raw : List (String × RawValue)) :
    ((∃ p ∈ am, lookupA raw p.1 = none) ↔ ∃ a, generate_value_map am raw = Except.error a) ∧
    (∀ a, generate_value_map am raw = Except.error a →
      a ∈ am.map Prod.fst ∧ lookupA raw a = none) ∧
    (∀ vm, generate_value_map am raw = Except.ok vm → (am.map Prod.snd).Nodup →
      ∀ la ma rv, (la, ma) ∈ am → lookupA raw la = some rv →
        lookupA vm ma = some (reduceRaw rv)) ∧
    reduceRaw (RawValue.multi []) = none ∧
    (∀ x xs, reduceRaw (RawValue.multi (x :: xs)) = some x) := by
  refine ⟨gvmGo_error_iff raw am [], fun a h => gvmGo_error_mem raw am [] a h,
          fun vm h hn la ma rv hm hraw => gvmGo_ok_mem raw am [] vm h hn la ma rv hm hraw,
          rfl, fun x xs => rfl⟩

/-- Witness for C7 at concrete inputs: the multi-valued `uid` is reduced to
its first element, the empty `mail` container maps to the no-value marker, and
a missing `mail` attribute is reported as the failure. -/
theorem C7_generate_value_map_spec_witness :
    lookupA [("uid", some "bob"), ("email", none)] "uid" = some (some "bob") ∧
    lookupA [("uid", some "bob"), ("email", none)] "email" = some none ∧
    (∃ a, generate_value_map wAm wRawMissing = Except.error a) := by
  have h := C7_generate_value_map_spec wAm wRaw
  have hmiss := C7_generate_value_map_spec wAm wRawMissing
  refine ⟨?_, ?_, ?_⟩
  · exact h.2.2.1 [("uid", some "bob"), ("email", none)] rfl (by decide)
      "uid" "uid" (RawValue.multi ["bob", "bob2"]) (by decide) rfl
  · exact h.2.2.1 [("uid", some "bob"), ("email", none)] rfl (by decide)
      "mail" "email" (RawValue.multi []) (by decide) rfl
  · exact hmiss.1.1 ⟨("mail", "email"), by decide, by decide⟩

/-- C10: applying a value map to a matched record assigns exactly the
attributes named as keys of the value map: every other attribute keeps its
value, and the primary key and the `is_active` column are untouched; the named
keys receive the mapped values. -/
theorem C10_apply_value_map_frame (vm : ValueMap) (r : DRecord) :
    (∀ k, k ∉ vm.map Prod.fst → dgetattr (apply_value_map vm r) k = dgetattr r k) ∧
    (apply_value_map vm r).pk = r.pk ∧
    (apply_value_map vm r).active = r.active ∧
    ((vm.map Prod.fst).Nodup → ∀ k v, (k, v) ∈ vm → dgetattr (apply_value_map vm r) k = v) := by
  exact ⟨fun k hk => dgetattr_apply_not_mem hk, rfl, rfl,
         fun hn k v hm => dgetattr_apply_mem hn hm⟩

/-- Witness for C10 at a concrete record and value map: `email` is rewritten,
the unmapped `office` field, the primary key and the flag are unchanged. -/
theorem C10_apply_value_map_frame_witness :
    dgetattr (apply_value_map [("email", some "new@x")]
      { pk := 3, fields := [("uid", some "bob"), ("office", some "B2"), ("email", some "old@x")],
        active := true }) "office" = some "B2" ∧
    (apply_value_map [("email", some "new@x")]
      { pk := 3, fields := [("uid", some "bob"), ("office", some "B2"), ("email", some "old@x")],
        active := true }).pk = 3 ∧
    dgetattr (apply_value_map [("email", some "new@x")]
      { pk := 3, fields := [("uid", some "bob"), ("office", some "B2"), ("email", some "old@x")],
        active := true }) "email" = some "new@x" := by
  have h := C10_apply_value_map_frame [("email", some "new@x")]
    { pk := 3, fields := [("uid", some "bob"), ("office", some "B2"), ("email", some "old@x")],
      active := true }
  exact ⟨h.1 "office" (by decide), h.2.1, h.2.2.2 (by decide) "email" (some "new@x") (by decide)⟩

/-! ### Chunking lemmas -/

theorem chunksOfGo_fuel {α : Type} (n : Nat) :
    ∀ (fuel1 fuel2 : Nat) (l : List α), l.length ≤ fuel1 → l.length ≤ fuel2 →
      chunksOfGo n fuel1 l = chunksOfGo n fuel2 l := by
  intro fuel1
  induction fuel1 with
  | zero =>
    intro fuel2 l h1 _
    have : l = [] := List.eq_nil_of_length_eq_zero (Nat.le_zero.1 h1)
    subst this
    cases fuel2 <;> rfl
  | succ f ih =>
    intro fuel2 l h1 h2
    cases l with
    | nil => cases fuel2 <;> rfl
    | cons x xs =>
      cases fuel2 with
      | zero => simp at h2
      | succ f2 =>
        simp only [chunksOfGo]
        congr 1
        exact ih f2 (xs.drop (n - 1))
          (le_trans (by simp) (Nat.lt_succ_iff.1 h1))
          (le_trans (by simp) (Nat.lt_succ_iff.1 h2))

theorem chunksOf_nil {α : Type} (n : Nat) : chunksOf n ([] : List α) = [] := rfl

theorem chunksOf_cons {α : Type} (n : Nat) (x : α) (xs : List α) :
    chunksOf n (x :: xs) = (x :: xs.take (n - 1)) :: chunksOf n (xs.drop (n - 1)) := by
  show chunksOfGo n (xs.length + 1) (x :: xs) = _
  simp only [chunksOfGo]
  congr 1
  exact chunksOfGo_fuel n xs.length (xs.drop (n - 1)).length (xs.drop (n - 1))
    (by simp) (le_refl _)

theorem foldl_chunksOfGo {α σ : Type} (g : σ → α → σ) (n : Nat) :
    ∀ (fuel : Nat) (l : List α) (init : σ), l.length ≤ fuel →
      (chunksOfGo n fuel l).foldl (fun st c => c.foldl g st) init = l.foldl g init := by
  intro fuel
  induction fuel with
  | zero =>
    intro l init h
    have : l = [] := List.eq_nil_of_length_eq_zero (Nat.le_zero.1 h)
    subst this
    rfl
  | succ f ih =>
    intro l init h
    cases l with
    | nil => rfl
    | cons x xs =>
      rw [show chunksOfGo n (f + 1) (x :: xs)
            = (x :: xs.take (n - 1)) :: chunksOfGo n f (xs.drop (n - 1)) from rfl]
      rw [List.foldl_cons]
      rw [ih (xs.drop (n - 1)) ((x :: xs.take (n - 1)).foldl g init)
        (le_trans (by simp) (Nat.lt_succ_iff.1 h))]
      conv_rhs => rw [show x :: xs = (x :: xs.take (n - 1)) ++ xs.drop (n - 1) by
        simp [List.take_append_drop]]
      rw [List.foldl_append]

theorem foldl_chunksOf {α σ : Type} (g : σ → α → σ) (n : Nat) (l : List α) (init : σ) :
    (chunksOf n l).foldl (fun st c => c.foldl g st) init = l.foldl g init :=
  foldl_chunksOfGo g n l.length l init (le_refl _)

theorem chunked_bulk_create_eq (s : Store) (vms : List ValueMap) (cs : Nat) :
    chunked_bulk_create s vms cs = bulk_create s vms :=
  foldl_chunksOf _ cs vms s

theorem chunked_bulk_create_sync_eq (s : Store) (items : List (Nat × String)) (cs : Nat) :
    chunked_bulk_create_sync s items cs = bulk_create_sync s items :=
  foldl_chunksOf _ cs items s

/-! ### Closed forms of the bulk-create operations -/

theorem bulk_create_spec :
    ∀ (vms : List ValueMap) (s : Store),
      (bulk_create s vms).records = s.records ++ mkNew s.nextPk vms ∧
      (bulk_create s vms).nextPk = s.nextPk + vms.length ∧
      (bulk_create s vms).syncRecords = s.syncRecords ∧
      (bulk_create s vms).clock = s.clock := by
  intro vms
  induction vms with
  | nil => intro s; simp [bulk_create, mkNew]
  | cons vm rest ih =>
    intro s
    have step : bulk_create s (vm :: rest)
        = bulk_create { s with records := s.records ++ [{ pk := s.nextPk, fields := vm, active := true }],
                               nextPk := s.nextPk + 1 } rest := rfl
    rw [step]
    obtain ⟨h1, h2, h3, h4⟩ := ih { s with records := s.records ++ [{ pk := s.nextPk, fields := vm, active := true }],
                                           nextPk := s.nextPk + 1 }
    refine ⟨?_, ?_, h3, h4⟩
    · rw [h1]
      simp [mkNew]
    · rw [h2]
      simp
      omega

theorem mkSyncFrom_def_nil (ck : Nat) : mkSyncFrom ck [] = [] := rfl

theorem bulk_create_sync_spec :
    ∀ (items : List (Nat × String)) (s : Store),
      (bulk_create_sync s items).syncRecords = s.syncRecords ++ mkSyncFrom s.clock items ∧
      (bulk_create_sync s items).clock = s.clock + items.length ∧
      (bulk_create_sync s items).records = s.records ∧
      (bulk_create_sync s items).nextPk = s.nextPk := by
  intro items
  induction items with
  | nil => intro s; simp [bulk_create_sync, mkSyncFrom]
  | cons p rest ih =>
    intro s
    obtain ⟨pk, dn⟩ := p
    have step : bulk_create_sync s ((pk, dn) :: rest)
        = bulk_create_sync (createSyncRecord s pk dn) rest := rfl
    rw [step]
    obtain ⟨h1, h2, h3, h4⟩ := ih (createSyncRecord s pk dn)
    refine ⟨?_, ?_, h3, h4⟩
    · rw [h1]
      simp [createSyncRecord, mkSyncFrom]
    · rw [h2]
      simp [createSyncRecord]
      omega

/-! ### Entry-shape extraction lemmas -/

theorem EntryShape.gvm_ok {cfg : Config} {o : LdapObject} (h : EntryShape cfg o) :
    generate_value_map cfg.attribute_map o.attributes = Except.ok (evm cfg o) := by
  obtain ⟨_, h2, _⟩ := h
  unfold evm
  cases hg : generate_value_map cfg.attribute_map o.attributes with
  | error e => rw [hg] at h2; simp [Except.toOption] at h2
  | ok vm => simp [Except.toOption]

theorem EntryShape.lookup_uname {cfg : Config} {o : LdapObject} (h : EntryShape cfg o) :
    lookupA (evm cfg o) cfg.unique_name_field = some (ename cfg o) := by
  obtain ⟨_, _, h3⟩ := h
  unfold ename
  cases hl : lookupA (evm cfg o) cfg.unique_name_field with
  | none => rw [hl] at h3; simp at h3
  | some u => rfl

theorem EntryShape.vm_keys_nodup {cfg : Config} {o : LdapObject} (h : EntryShape cfg o) :
    ((evm cfg o).map Prod.fst).Nodup :=
  gvm_keys_nodup h.gvm_ok

/-! ### Derived dictionary lemmas -/

theorem lookupA_filter_key {α β : Type} [DecidableEq α] (q : α → Bool) :
    ∀ (l : List (α × β)) (k : α),
      lookupA (l.filter (fun p => q p.1)) k = if q k then lookupA l k else none := by
  intro l
  induction l with
  | nil => intro k; cases q k <;> simp [lookupA]
  | cons p rest ih =>
    intro k
    obtain ⟨k1, v1⟩ := p
    by_cases hk : k1 = k
    · subst hk
      cases hq : q k1 <;> simp [List.filter_cons, hq, lookupA, ih]
    · cases hq : q k1 <;> simp [List.filter_cons, hq, lookupA, hk, ih]

theorem eraseA_eq_filter {α β : Type} [DecidableEq α] :
    ∀ (l : List (α × β)) (k : α), (l.map Prod.fst).Nodup →
      eraseA l k = l.filter (fun p => !(decide (p.1 = k))) := by
  intro l
  induction l with
  | nil => intro k _; rfl
  | cons p rest ih =>
    intro k hn
    obtain ⟨k1, v1⟩ := p
    simp only [List.map_cons, List.nodup_cons] at hn
    by_cases hk : k1 = k
    · subst hk
      have : rest.filter (fun p => !(decide (p.1 = k1))) = rest := by
        rw [List.filter_eq_self]
        intro p hp
        simp only [Bool.not_eq_true', decide_eq_false_iff_not]
        intro he
        exact hn.1 (List.mem_map.2 ⟨p, hp, he⟩)
      simp [eraseA, List.filter_cons, this]
    · simp [eraseA, List.filter_cons, hk, ih _ hn.2]

theorem keys_filter_nodup {α β : Type} [DecidableEq α] (l : List (α × β)) (q : α × β → Bool)
    (h : (l.map Prod.fst).Nodup) : ((l.filter q).map Prod.fst).Nodup :=
  List.Nodup.sublist (List.Sublist.map Prod.fst (List.filter_sublist l)) h

theorem foldl_insertA_fresh {α β : Type} [DecidableEq α] (key : β → α) :
    ∀ (rs : List β) (acc : List (α × β)), (rs.map key).Nodup →
      (∀ r ∈ rs, key r ∉ acc.map Prod.fst) →
      rs.foldl (fun d r => insertA d (key r) r) acc = acc ++ rs.map (fun r => (key r, r)) := by
  intro rs
  induction rs with
  | nil => intro acc _ _; simp
  | cons r rest ih =>
    intro acc hn hf
    simp only [List.map_cons, List.nodup_cons] at hn
    simp only [List.foldl_cons]
    rw [insertA_of_not_mem r (hf r (List.mem_cons_self _ _))]
    rw [ih (acc ++ [(key r, r)]) hn.2]
    · simp
    · intro r1 hr1
      simp only [List.map_append, List.mem_append]
      push_neg
      refine ⟨hf r1 (List.mem_cons_of_mem _ hr1), ?_⟩
      simp only [List.map_cons, List.map_nil, List.mem_singleton]
      intro he
      exact hn.1 (he ▸ List.mem_map.2 ⟨r1, hr1, rfl⟩)

theorem deriveDjangoObjects_eq {cfg : Config} {s : Store} (h : (recNames cfg s).Nodup) :
    deriveDjangoObjects cfg s
      = s.records.map (fun r => (dgetattr r cfg.unique_name_field, r)) := by
  unfold deriveDjangoObjects get_django_objects
  rw [foldl_insertA_fresh (fun r => dgetattr r cfg.unique_name_field) s.records [] h
    (fun r _ => by simp)]
  simp

theorem lookupA_map_pair_mem {α β : Type} [DecidableEq α] (key : β → α) :
    ∀ (rs : List β) (u : α) (r : β),
      lookupA (rs.map (fun r => (key r, r))) u = some r → r ∈ rs ∧ key r = u := by
  intro rs
  induction rs with
  | nil => intro u r h; simp [lookupA] at h
  | cons r0 rest ih =>
    intro u r h
    simp only [List.map_cons] at h
    by_cases hk : key r0 = u
    · simp [lookupA, hk] at h
      subst h
      exact ⟨List.mem_cons_self _ _, hk⟩
    · simp only [lookupA, hk, if_false] at h
      have := ih u r h
      exact ⟨List.mem_cons_of_mem _ this.1, this.2⟩

theorem lookupA_map_pair_of_mem {α β : Type} [DecidableEq α] (key : β → α) :
    ∀ (rs : List β) (u : α) (r : β), (rs.map key).Nodup → r ∈ rs → key r = u →
      lookupA (rs.map (fun r => (key r, r))) u = some r := by
  intro rs
  induction rs with
  | nil => intro u r _ hm; simp at hm
  | cons r0 rest ih =>
    intro u r hn hm hk
    simp only [List.map_cons, List.nodup_cons] at hn
    rcases List.mem_cons.1 hm with h | h
    · subst h
      simp [lookupA, hk]
    · have hne : key r0 ≠ u := by
        intro he
        exact hn.1 (he ▸ hk ▸ List.mem_map.2 ⟨r, h, rfl⟩)
      simp only [List.map_cons, lookupA, hne, if_false]
      exact ih u r hn.2 h hk

theorem lookupA_map_pair_none {α β : Type} [DecidableEq α] (key : β → α)
    (rs : List β) (u : α) (h : u ∉ rs.map key) :
    lookupA (rs.map (fun r => (key r, r))) u = none := by
  apply lookupA_eq_none_of_not_mem
  intro hmem
  apply h
  rw [List.map_map] at hmem
  simpa using hmem

/-! ### Sync-record filter lemmas -/

theorem filter_pk_map_ite (l : List SyncRecord) (pk : Nat) (dn : String) (ck : Nat) :
    ((l.map (fun s1 => if s1.object_id = pk
        then { s1 with distinguished_name := dn, updated_at := ck } else s1)).filter
      (fun sr => decide (sr.object_id = pk)))
    = (l.filter (fun sr => decide (sr.object_id = pk))).map
        (fun s1 => { s1 with distinguished_name := dn, updated_at := ck }) := by
  induction l with
  | nil => rfl
  | cons s1 rest ih =>
    by_cases h : s1.object_id = pk
    · simp [List.filter_cons, h, ih]
    · simp [List.filter_cons, h, ih]

theorem filter_pk_map_ite_ne (l : List SyncRecord) (pk pk1 : Nat) (dn : String) (ck : Nat)
    (h : pk1 ≠ pk) :
    ((l.map (fun s1 => if s1.object_id = pk
        then { s1 with distinguished_name := dn, updated_at := ck } else s1)).filter
      (fun sr => decide (sr.object_id = pk1)))
    = l.filter (fun sr => decide (sr.object_id = pk1)) := by
  induction l with
  | nil => rfl
  | cons s1 rest ih =>
    by_cases h1 : s1.object_id = pk
    · have h2 : ¬ s1.object_id = pk1 := by rw [h1]; exact fun he => h he.symm
      simp [List.filter_cons, h1, h2, ih, Ne.symm h]
    · by_cases h2 : s1.object_id = pk1 <;> simp [List.filter_cons, h1, h2, ih, h]

theorem filter_pk_cases (l : List SyncRecord) (pk : Nat)
    (h : (l.map (fun sr => sr.object_id)).Nodup) :
    l.filter (fun sr => decide (sr.object_id = pk)) = [] ∨
    ∃ sr, l.filter (fun sr => decide (sr.object_id = pk)) = [sr] ∧ sr ∈ l ∧ sr.object_id = pk := by
  induction l with
  | nil => left; rfl
  | cons s1 rest ih =>
    simp only [List.map_cons, List.nodup_cons] at h
    by_cases h1 : s1.object_id = pk
    · right
      refine ⟨s1, ?_, List.mem_cons_self _ _, h1⟩
      have : rest.filter (fun sr => decide (sr.object_id = pk)) = [] := by
        rw [List.filter_eq_nil_iff]
        intro sr hsr
        simp only [decide_eq_true_eq]
        intro he
        exact h.1 (h1 ▸ he ▸ List.mem_map.2 ⟨sr, hsr, rfl⟩)
      simp [List.filter_cons, h1, this]
    · rcases ih h.2 with hc | ⟨sr, hsr, hmem, hpk⟩
      · left; simp [List.filter_cons, h1, hc]
      · right
        exact ⟨sr, by simp [List.filter_cons, h1, hsr], List.mem_cons_of_mem _ hmem, hpk⟩

theorem filter_pk_append (l1 l2 : List SyncRecord) (pk : Nat) :
    (l1 ++ l2).filter (fun sr => decide (sr.object_id = pk))
      = l1.filter (fun sr => decide (sr.object_id = pk))
        ++ l2.filter (fun sr => decide (sr.object_id = pk)) := by
  simp

/-! ### Small accessor lemmas -/

theorem apply_value_map_pk (vm : ValueMap) (r : DRecord) : (apply_value_map vm r).pk = r.pk := rfl

theorem apply_value_map_active (vm : ValueMap) (r : DRecord) :
    (apply_value_map vm r).active = r.active := rfl

theorem saveRecord_syncRecords (s : Store) (r : DRecord) :
    (saveRecord s r).syncRecords = s.syncRecords := rfl

theorem saveRecord_clock (s : Store) (r : DRecord) : (saveRecord s r).clock = s.clock := rfl

theorem saveRecord_nextPk (s : Store) (r : DRecord) : (saveRecord s r).nextPk = s.nextPk := rfl

theorem saveRecord_records (s : Store) (r : DRecord) :
    (saveRecord s r).records = s.records.map (fun r1 => if r1.pk = r.pk then r else r1) := rfl

/-! ### `find?` helpers -/

theorem find?_append_cases {α : Type} (p : α → Bool) :
    ∀ (l1 l2 : List α), (l1 ++ l2).find? p
      = match l1.find? p with
        | some a => some a
        | none => l2.find? p := by
  intro l1 l2
  induction l1 with
  | nil => rfl
  | cons a l ih =>
    by_cases h : p a <;> simp [List.find?_cons, h, ih]

theorem find?_eq_none_of (p : α → Bool) (l : List α) (h : ∀ a ∈ l, ¬ p a) :
    l.find? p = none :=
  List.find?_eq_none.2 h

/-! ### `postRecord` lemmas -/

theorem postRecord_pk (cfg : Config) (objs : List LdapObject) (r : DRecord) :
    (postRecord cfg objs r).pk = r.pk := by
  unfold postRecord
  cases h : objs.find? (fun o => decide (ename cfg o = dgetattr r cfg.unique_name_field)) with
  | none => rfl
  | some o =>
    by_cases hc : will_model_change (evm cfg o) r <;> simp [hc, apply_value_map_pk]

theorem postRecord_active (cfg : Config) (objs : List LdapObject) (r : DRecord) :
    (postRecord cfg objs r).active = r.active := by
  unfold postRecord
  cases h : objs.find? (fun o => decide (ename cfg o = dgetattr r cfg.unique_name_field)) with
  | none => rfl
  | some o =>
    by_cases hc : will_model_change (evm cfg o) r <;> simp [hc, apply_value_map_active]

theorem postRecord_name (cfg : Config) (objs : List LdapObject) (r : DRecord)
    (hwf : ∀ o ∈ objs, EntryShape cfg o) :
    dgetattr (postRecord cfg objs r) cfg.unique_name_field
      = dgetattr r cfg.unique_name_field := by
  unfold postRecord
  cases h : objs.find? (fun o => decide (ename cfg o = dgetattr r cfg.unique_name_field)) with
  | none => rfl
  | some o =>
    have hmem := List.mem_of_find?_eq_some h
    have hpred : ename cfg o = dgetattr r cfg.unique_name_field := by
      have := List.find?_some h
      simpa using this
    by_cases hc : will_model_change (evm cfg o) r
    · simp only [hc, if_true]
      have hlk := (hwf o hmem).lookup_uname
      have hm := (lookupA_isSome_mem hlk).1
      rw [dgetattr_apply_mem (hwf o hmem).vm_keys_nodup hm]
      exact hpred
    · simp [hc]

theorem postRecord_append_none (cfg : Config) (pre : List LdapObject) (o : LdapObject)
    (r : DRecord) (h : ¬ ename cfg o = dgetattr r cfg.unique_name_field) :
    postRecord cfg (pre ++ [o]) r = postRecord cfg pre r := by
  unfold postRecord
  rw [find?_append_cases]
  cases hf : pre.find? (fun o => decide (ename cfg o = dgetattr r cfg.unique_name_field)) with
  | some p => rfl
  | none => simp [List.find?, h]

theorem postRecord_append_matched (cfg : Config) (pre : List LdapObject) (o : LdapObject)
    (r : DRecord) (h : ename cfg o = dgetattr r cfg.unique_name_field)
    (hpre : ∀ p ∈ pre, ¬ ename cfg p = dgetattr r cfg.unique_name_field) :
    postRecord cfg (pre ++ [o]) r
      = if will_model_change (evm cfg o) r then apply_value_map (evm cfg o) r else r := by
  unfold postRecord
  rw [find?_append_cases]
  rw [find?_eq_none_of _ _ (by intro p hp; simpa using hpre p hp)]
  simp [List.find?, h]

theorem postRecord_eq_self (cfg : Config) (pre : List LdapObject) (r : DRecord)
    (hpre : ∀ p ∈ pre, ¬ ename cfg p = dgetattr r cfg.unique_name_field) :
    postRecord cfg pre r = r := by
  unfold postRecord
  rw [find?_eq_none_of _ _ (by intro p hp; simpa using hpre p hp)]

/-! ### `pickRecord` lemmas -/

theorem pickRecord_mem {cfg : Config} {s : Store} {u : UName} {r : DRecord}
    (HRN : (recNames cfg s).Nodup) (h : pickRecord cfg s u = some r) :
    r ∈ s.records ∧ dgetattr r cfg.unique_name_field = u := by
  unfold pickRecord at h
  rw [deriveDjangoObjects_eq HRN] at h
  exact lookupA_map_pair_mem _ s.records u r h

theorem pickRecord_of_name {cfg : Config} {s : Store} {u : UName} {r : DRecord}
    (HRN : (recNames cfg s).Nodup) (hr : r ∈ s.records)
    (hn : dgetattr r cfg.unique_name_field = u) : pickRecord cfg s u = some r := by
  unfold pickRecord
  rw [deriveDjangoObjects_eq HRN]
  exact lookupA_map_pair_of_mem _ s.records u r HRN hr hn

theorem pickRecord_none {cfg : Config} {s : Store} {u : UName}
    (HRN : (recNames cfg s).Nodup) (h : u ∉ recNames cfg s) :
    pickRecord cfg s u = none := by
  unfold pickRecord
  rw [deriveDjangoObjects_eq HRN]
  exact lookupA_map_pair_none _ s.records u h

theorem pickRecord_none_not_mem {cfg : Config} {s : Store} {u : UName}
    (HRN : (recNames cfg s).Nodup) (h : pickRecord cfg s u = none) :
    u ∉ recNames cfg s := by
  intro hmem
  obtain ⟨r, hr, hn⟩ := List.mem_map.1 hmem
  rw [pickRecord_of_name HRN hr hn] at h
  exact absurd h (by simp)

theorem pickRecord_pk_inj {cfg : Config} {s : Store} {u u1 : UName} {r r1 : DRecord}
    (HRN : (recNames cfg s).Nodup) (HPK : (s.records.map (fun r => r.pk)).Nodup)
    (h : pickRecord cfg s u = some r) (h1 : pickRecord cfg s u1 = some r1)
    (hpk : r.pk = r1.pk) : u = u1 := by
  obtain ⟨hr, hn⟩ := pickRecord_mem HRN h
  obtain ⟨hr1, hn1⟩ := pickRecord_mem HRN h1
  have : r = r1 := List.inj_on_of_nodup_map HPK hr hr1 hpk
  subst this
  rw [← hn, ← hn1]

/-! ### `syncXform` fold lemmas -/

theorem syncFold_append (cfg : Config) (s : Store) (pre : List LdapObject) (o : LdapObject)
    (acc : List SyncRecord × Nat) :
    (pre ++ [o]).foldl (syncXform cfg s) acc
      = syncXform cfg s (pre.foldl (syncXform cfg s) acc) o := by
  simp [List.foldl_append]

theorem syncXform_none (cfg : Config) (s : Store) (acc : List SyncRecord × Nat)
    (o : LdapObject) (h : pickRecord cfg s (ename cfg o) = none) :
    syncXform cfg s acc o = acc := by
  unfold syncXform
  rw [h]

theorem syncXform_create (cfg : Config) (s : Store) (acc : List SyncRecord × Nat)
    (o : LdapObject) (r : DRecord) (h : pickRecord cfg s (ename cfg o) = some r)
    (hf : acc.1.filter (fun sr => decide (sr.object_id = r.pk)) = []) :
    syncXform cfg s acc o
      = (acc.1 ++ [{ object_id := r.pk, distinguished_name := o.dn,
                     created_at := acc.2, updated_at := acc.2 }], acc.2 + 1) := by
  simp only [syncXform, h, hf]

theorem syncXform_touch (cfg : Config) (s : Store) (acc : List SyncRecord × Nat)
    (o : LdapObject) (r : DRecord) (sr : SyncRecord) (tl : List SyncRecord)
    (h : pickRecord cfg s (ename cfg o) = some r)
    (hf : acc.1.filter (fun sr => decide (sr.object_id = r.pk)) = sr :: tl)
    (hdn : sr.distinguished_name ≠ o.dn) :
    syncXform cfg s acc o
      = (acc.1.map (fun s1 =>
          if s1.object_id = r.pk then
            { s1 with distinguished_name := o.dn, updated_at := acc.2 }
          else s1), acc.2 + 1) := by
  simp only [syncXform, h, hf]
  simp [hdn]

theorem syncXform_keep (cfg : Config) (s : Store) (acc : List SyncRecord × Nat)
    (o : LdapObject) (r : DRecord) (sr : SyncRecord) (tl : List SyncRecord)
    (h : pickRecord cfg s (ename cfg o) = some r)
    (hf : acc.1.filter (fun sr => decide (sr.object_id = r.pk)) = sr :: tl)
    (hdn : sr.distinguished_name = o.dn) :
    syncXform cfg s acc o = acc := by
  simp only [syncXform, h, hf]
  simp [hdn]

theorem syncFold_filter_untouched (cfg : Config) (s : Store) :
    ∀ (pre : List LdapObject) (acc : List SyncRecord × Nat) (pk : Nat),
      (∀ p ∈ pre, ∀ r, pickRecord cfg s (ename cfg p) = some r → r.pk ≠ pk) →
      ((pre.foldl (syncXform cfg s) acc).1.filter (fun sr => decide (sr.object_id = pk)))
        = acc.1.filter (fun sr => decide (sr.object_id = pk)) := by
  intro pre
  induction pre with
  | nil => intro acc pk _; rfl
  | cons p rest ih =>
    intro acc pk h
    simp only [List.foldl_cons]
    rw [ih (syncXform cfg s acc p) pk (fun q hq => h q (List.mem_cons_of_mem _ hq))]
    cases hp : pickRecord cfg s (ename cfg p) with
    | none => rw [syncXform_none cfg s acc p hp]
    | some r =>
      have hr : r.pk ≠ pk := h p (List.mem_cons_self _ _) r hp
      cases hfil : acc.1.filter (fun sr => decide (sr.object_id = r.pk)) with
      | nil =>
        rw [syncXform_create cfg s acc p r hp hfil]
        simp only [filter_pk_append]
        have hone : (List.filter (fun sr => decide (sr.object_id = pk)) [({ object_id := r.pk, distinguished_name := p.dn, created_at := acc.2, updated_at := acc.2 } : SyncRecord)]) = [] := by
          simp [List.filter, hr]
        rw [hone]
        simp
      | cons sr rest1 =>
        by_cases hdn : sr.distinguished_name = p.dn
        · rw [syncXform_keep cfg s acc p r sr rest1 hp hfil hdn]
        · rw [syncXform_touch cfg s acc p r sr rest1 hp hfil hdn]
          exact filter_pk_map_ite_ne acc.1 r.pk pk p.dn acc.2 (fun he => hr he.symm)

/-! ### Per-component step lemmas for the entry loop -/

theorem map_congr_mem {α β : Type} {l : List α} {f g : α → β} (h : ∀ a ∈ l, f a = g a) :
    l.map f = l.map g := by
  induction l with
  | nil => rfl
  | cons a rest ih =>
    simp only [List.map_cons]
    rw [h a (List.mem_cons_self _ _), ih (fun a ha => h a (List.mem_cons_of_mem _ ha))]

theorem keys_derive (cfg : Config) (s : Store) (HRN : (recNames cfg s).Nodup) :
    (deriveDjangoObjects cfg s).map Prod.fst = recNames cfg s := by
  rw [deriveDjangoObjects_eq HRN, List.map_map]
  rfl

theorem map_postRecord_append_unmatched (cfg : Config) (s : Store) (pre : List LdapObject)
    (o : LdapObject) (hnone : ename cfg o ∉ recNames cfg s) :
    s.records.map (postRecord cfg (pre ++ [o])) = s.records.map (postRecord cfg pre) := by
  apply map_congr_mem
  intro r hr
  apply postRecord_append_none
  intro he
  have hmem : dgetattr r cfg.unique_name_field ∈ recNames cfg s :=
    List.mem_map_of_mem _ hr
  rw [← he] at hmem
  exact hnone hmem

theorem map_postRecord_append_matched (cfg : Config) (s : Store) (pre : List LdapObject)
    (o : LdapObject) (dj : DRecord)
    (HRN : (recNames cfg s).Nodup) (HPK : (s.records.map (fun r => r.pk)).Nodup)
    (hname : ename cfg o ∉ pre.map (ename cfg))
    (hdj : dj ∈ s.records) (hdjn : dgetattr dj cfg.unique_name_field = ename cfg o) :
    s.records.map (postRecord cfg (pre ++ [o]))
      = if will_model_change (evm cfg o) dj
        then (s.records.map (postRecord cfg pre)).map
               (fun r1 => if r1.pk = dj.pk then apply_value_map (evm cfg o) dj else r1)
        else s.records.map (postRecord cfg pre) := by
  have hpre_dj : ∀ p ∈ pre, ¬ ename cfg p = dgetattr dj cfg.unique_name_field := by
    intro p hp he
    exact hname (hdjn ▸ he ▸ List.mem_map_of_mem _ hp)
  by_cases hw : will_model_change (evm cfg o) dj
  · simp only [hw, if_true]
    rw [List.map_map]
    apply map_congr_mem
    intro r hr
    by_cases hpk : r.pk = dj.pk
    · have hrdj : r = dj := List.inj_on_of_nodup_map HPK hr hdj hpk
      subst hrdj
      rw [postRecord_append_matched cfg pre o r hdjn.symm hpre_dj]
      simp only [Function.comp_apply]
      rw [postRecord_eq_self cfg pre r hpre_dj]
      simp [hw]
    · have hne : ¬ ename cfg o = dgetattr r cfg.unique_name_field := by
        intro he
        have : r = dj := by
          apply List.inj_on_of_nodup_map HRN hr hdj
          rw [← he, hdjn]
        exact hpk (this ▸ rfl)
      rw [postRecord_append_none cfg pre o r hne]
      simp only [Function.comp_apply]
      rw [if_neg (by rw [postRecord_pk]; exact hpk)]
  · simp only [hw, if_false]
    apply map_congr_mem
    intro r hr
    by_cases hpk : r.pk = dj.pk
    · have hrdj : r = dj := List.inj_on_of_nodup_map HPK hr hdj hpk
      subst hrdj
      rw [postRecord_append_matched cfg pre o r hdjn.symm hpre_dj]
      rw [postRecord_eq_self cfg pre r hpre_dj]
      simp [hw]
    · have hne : ¬ ename cfg o = dgetattr r cfg.unique_name_field := by
        intro he
        have : r = dj := by
          apply List.inj_on_of_nodup_map HRN hr hdj
          rw [← he, hdjn]
        exact hpk (this ▸ rfl)
      rw [postRecord_append_none cfg pre o r hne]

theorem dict_step_matched (cfg : Config) (s : Store) (pre : List LdapObject) (o : LdapObject)
    (HRN : (recNames cfg s).Nodup) :
    eraseA ((deriveDjangoObjects cfg s).filter
        (fun p => !(decide (p.1 ∈ pre.map (ename cfg))))) (ename cfg o)
      = (deriveDjangoObjects cfg s).filter
          (fun p => !(decide (p.1 ∈ (pre ++ [o]).map (ename cfg)))) := by
  have hk0 : ((deriveDjangoObjects cfg s).map Prod.fst).Nodup := by
    rw [keys_derive cfg s HRN]
    exact HRN
  rw [eraseA_eq_filter _ _ (keys_filter_nodup _ _ hk0)]
  rw [List.filter_filter]
  apply List.filter_congr
  intro p hp
  simp only [List.map_append, List.map_cons, List.map_nil, List.mem_append,
    List.mem_singleton]
  by_cases h1 : p.1 ∈ pre.map (ename cfg) <;> by_cases h2 : p.1 = ename cfg o <;>
    simp [h1, h2]

theorem dict_step_unmatched (cfg : Config) (s : Store) (pre : List LdapObject) (o : LdapObject)
    (HRN : (recNames cfg s).Nodup) (hnone : ename cfg o ∉ recNames cfg s) :
    (deriveDjangoObjects cfg s).filter (fun p => !(decide (p.1 ∈ pre.map (ename cfg))))
      = (deriveDjangoObjects cfg s).filter
          (fun p => !(decide (p.1 ∈ (pre ++ [o]).map (ename cfg)))) := by
  apply List.filter_congr
  intro p hp
  have hpk : p.1 ∈ recNames cfg s := by
    rw [← keys_derive cfg s HRN]
    exact List.mem_map_of_mem _ hp
  have hne : p.1 ≠ ename cfg o := fun he => hnone (he ▸ hpk)
  simp [List.mem_append, hne]

theorem unmap_step (cfg : Config) (pre : List LdapObject) (o : LdapObject)
    (hname : ename cfg o ∉ pre.map (ename cfg)) :
    insertA (pre.map (fun p => (ename cfg p, p.dn))) (ename cfg o) o.dn
      = (pre ++ [o]).map (fun p => (ename cfg p, p.dn)) := by
  have hkeys : (pre.map (fun p => (ename cfg p, p.dn))).map Prod.fst = pre.map (ename cfg) := by
    rw [List.map_map]
    rfl
  rw [insertA_of_not_mem _ (by rw [hkeys]; exact hname)]
  simp

theorem unsaved_step (cfg : Config) (s : Store) (pre : List LdapObject) (o : LdapObject) :
    ((pre ++ [o]).filter (fun p => !(decide (ename cfg p ∈ recNames cfg s)))).map (evm cfg)
      = (pre.filter (fun p => !(decide (ename cfg p ∈ recNames cfg s)))).map (evm cfg)
        ++ (if ename cfg o ∈ recNames cfg s then [] else [evm cfg o]) := by
  rw [List.filter_append]
  by_cases hm : ename cfg o ∈ recNames cfg s <;> simp [List.filter, hm]

theorem countUpdated_append (cfg : Config) (s : Store) (pre : List LdapObject) (o : LdapObject) :
    countUpdated cfg s (pre ++ [o])
      = countUpdated cfg s pre
        + (match pickRecord cfg s (ename cfg o) with
           | some r => if will_model_change (evm cfg o) r then 1 else 0
           | none => 0) := by
  unfold countUpdated
  rw [List.filter_append, List.length_append]
  congr 1
  cases hp : pickRecord cfg s (ename cfg o) with
  | none => simp [List.filter, hp]
  | some r => by_cases hw : will_model_change (evm cfg o) r <;> simp [List.filter, hp, hw]

/-! ### The entry-loop step in closed form -/

theorem processOne_stateAfter (cfg : Config) (s : Store) (pre : List LdapObject)
    (o : LdapObject) (HS : StoreWF cfg s) (ho : EntryShape cfg o)
    (hname : ename cfg o ∉ pre.map (ename cfg)) :
    processOne cfg (stateAfter cfg s pre) o = Except.ok (stateAfter cfg s (pre ++ [o]), []) := by
  obtain ⟨HRN, HPK, HPKlt, HOI, HOIlt⟩ := HS
  have hdict : lookupA ((deriveDjangoObjects cfg s).filter
      (fun p => !(decide (p.1 ∈ pre.map (ename cfg))))) (ename cfg o)
      = pickRecord cfg s (ename cfg o) := by
    rw [lookupA_filter_key (fun a => !(decide (a ∈ pre.map (ename cfg))))]
    simp [hname, pickRecord]
  have e4 : insertA (pre.map (fun p => (ename cfg p, p.dn))) (ename cfg o) o.dn
      = (pre ++ [o]).map (fun p => (ename cfg p, p.dn)) := unmap_step cfg pre o hname
  cases hpick : pickRecord cfg s (ename cfg o) with
  | none =>
    have hnotrec : ename cfg o ∉ recNames cfg s := pickRecord_none_not_mem HRN hpick
    have e1 : s.records.map (postRecord cfg (pre ++ [o])) = s.records.map (postRecord cfg pre) :=
      map_postRecord_append_unmatched cfg s pre o hnotrec
    have e2 : (pre ++ [o]).foldl (syncXform cfg s) (s.syncRecords, s.clock)
        = pre.foldl (syncXform cfg s) (s.syncRecords, s.clock) := by
      rw [syncFold_append, syncXform_none cfg s _ o hpick]
    have e3 : (deriveDjangoObjects cfg s).filter (fun p => !(decide (p.1 ∈ pre.map (ename cfg))))
        = (deriveDjangoObjects cfg s).filter
            (fun p => !(decide (p.1 ∈ (pre ++ [o]).map (ename cfg)))) :=
      dict_step_unmatched cfg s pre o HRN hnotrec
    have e5 : ((pre ++ [o]).filter (fun p => !(decide (ename cfg p ∈ recNames cfg s)))).map (evm cfg)
        = (pre.filter (fun p => !(decide (ename cfg p ∈ recNames cfg s)))).map (evm cfg)
          ++ [evm cfg o] := by
      rw [unsaved_step cfg s pre o]
      simp [hnotrec]
    have e6 : countUpdated cfg s (pre ++ [o]) = countUpdated cfg s pre := by
      rw [countUpdated_append cfg s pre o, hpick]
      rfl
    simp only [processOne, stateAfter, ho.1, ho.gvm_ok, ho.lookup_uname, hdict, hpick,
      ne_eq, not_true_eq_false, ite_false]
    simp only [e1, e2, e3, e4, e5, e6]
  | some dj =>
    obtain ⟨hdjmem, hdjn⟩ := pickRecord_mem HRN hpick
    have hmemname : ename cfg o ∈ recNames cfg s := by
      rw [← hdjn]
      exact List.mem_map_of_mem _ hdjmem
    have hpres : ((pre.foldl (syncXform cfg s) (s.syncRecords, s.clock)).1.filter
        (fun sr => decide (sr.object_id = dj.pk)))
        = s.syncRecords.filter (fun sr => decide (sr.object_id = dj.pk)) := by
      apply syncFold_filter_untouched
      intro p hp rp hrp hpk
      have he : ename cfg p = ename cfg o := pickRecord_pk_inj HRN HPK hrp hpick hpk
      exact hname (he ▸ List.mem_map_of_mem (ename cfg) hp)
    have e3 : eraseA ((deriveDjangoObjects cfg s).filter
        (fun p => !(decide (p.1 ∈ pre.map (ename cfg))))) (ename cfg o)
        = (deriveDjangoObjects cfg s).filter
            (fun p => !(decide (p.1 ∈ (pre ++ [o]).map (ename cfg)))) :=
      dict_step_matched cfg s pre o HRN
    have e5 : ((pre ++ [o]).filter (fun p => !(decide (ename cfg p ∈ recNames cfg s)))).map (evm cfg)
        = (pre.filter (fun p => !(decide (ename cfg p ∈ recNames cfg s)))).map (evm cfg) := by
      rw [unsaved_step cfg s pre o]
      simp [hmemname]
    cases hw : will_model_change (evm cfg o) dj with
    | false =>
      have e1 : s.records.map (postRecord cfg (pre ++ [o])) = s.records.map (postRecord cfg pre) := by
        rw [map_postRecord_append_matched cfg s pre o dj HRN HPK hname hdjmem hdjn]
        simp [hw]
      have e6 : countUpdated cfg s (pre ++ [o]) = countUpdated cfg s pre := by
        rw [countUpdated_append cfg s pre o, hpick]
        simp [hw]
      rcases filter_pk_cases s.syncRecords dj.pk HOI with hfs | ⟨sr, hfs, hsrmem, hsrpk⟩
      · have e2 : (pre ++ [o]).foldl (syncXform cfg s) (s.syncRecords, s.clock)
            = ((pre.foldl (syncXform cfg s) (s.syncRecords, s.clock)).1
                ++ [{ object_id := dj.pk, distinguished_name := o.dn,
                      created_at := (pre.foldl (syncXform cfg s) (s.syncRecords, s.clock)).2,
                      updated_at := (pre.foldl (syncXform cfg s) (s.syncRecords, s.clock)).2 }],
               (pre.foldl (syncXform cfg s) (s.syncRecords, s.clock)).2 + 1) := by
          rw [syncFold_append, syncXform_create cfg s _ o dj hpick (hpres.trans hfs)]
        simp only [processOne, stateAfter, ho.1, ho.gvm_ok, ho.lookup_uname, hdict, hpick,
          hw, Bool.false_eq_true, ite_false, apply_value_map_pk, saveRecord_syncRecords,
          saveRecord_clock, saveRecord_nextPk, saveRecord_records, hpres, hfs,
          createSyncRecord, ne_eq, not_true_eq_false]
        simp only [e1, e2, e3, e4, e5, e6]
      · by_cases hdn : sr.distinguished_name = o.dn
        · have e2 : (pre ++ [o]).foldl (syncXform cfg s) (s.syncRecords, s.clock)
              = pre.foldl (syncXform cfg s) (s.syncRecords, s.clock) := by
            rw [syncFold_append, syncXform_keep cfg s _ o dj sr _ hpick (hpres.trans hfs) hdn]
          simp only [processOne, stateAfter, ho.1, ho.gvm_ok, ho.lookup_uname, hdict, hpick,
            hw, Bool.false_eq_true, ite_false, apply_value_map_pk, saveRecord_syncRecords,
            saveRecord_clock, saveRecord_nextPk, saveRecord_records, hpres, hfs, hdn,
            ne_eq, not_true_eq_false, not_false_eq_true, ite_true]
          simp only [e1, e2, e3, e4, e5, e6]
        · have e2 : (pre ++ [o]).foldl (syncXform cfg s) (s.syncRecords, s.clock)
              = ((pre.foldl (syncXform cfg s) (s.syncRecords, s.clock)).1.map (fun s1 =>
                  if s1.object_id = dj.pk then
                    { s1 with distinguished_name := o.dn,
                              updated_at := (pre.foldl (syncXform cfg s) (s.syncRecords, s.clock)).2 }
                  else s1),
                 (pre.foldl (syncXform cfg s) (s.syncRecords, s.clock)).2 + 1) := by
            rw [syncFold_append, syncXform_touch cfg s _ o dj sr _ hpick (hpres.trans hfs) hdn]
          simp only [processOne, stateAfter, ho.1, ho.gvm_ok, ho.lookup_uname, hdict, hpick,
            hw, Bool.false_eq_true, ite_false, apply_value_map_pk, saveRecord_syncRecords,
            saveRecord_clock, saveRecord_nextPk, saveRecord_records, hpres, hfs, hdn,
            saveSyncDn, ne_eq, not_true_eq_false, not_false_eq_true, ite_true,
            e1, e2, e3, e4, e5, e6]
    | true =>
      have e1 : s.records.map (postRecord cfg (pre ++ [o]))
          = (s.records.map (postRecord cfg pre)).map
              (fun r1 => if r1.pk = dj.pk then apply_value_map (evm cfg o) dj else r1) := by
        rw [map_postRecord_append_matched cfg s pre o dj HRN HPK hname hdjmem hdjn]
        simp [hw]
      have e6 : countUpdated cfg s (pre ++ [o]) = countUpdated cfg s pre + 1 := by
        rw [countUpdated_append cfg s pre o, hpick]
        simp [hw]
      rcases filter_pk_cases s.syncRecords dj.pk HOI with hfs | ⟨sr, hfs, hsrmem, hsrpk⟩
      · have e2 : (pre ++ [o]).foldl (syncXform cfg s) (s.syncRecords, s.clock)
            = ((pre.foldl (syncXform cfg s) (s.syncRecords, s.clock)).1
                ++ [{ object_id := dj.pk, distinguished_name := o.dn,
                      created_at := (pre.foldl (syncXform cfg s) (s.syncRecords, s.clock)).2,
                      updated_at := (pre.foldl (syncXform cfg s) (s.syncRecords, s.clock)).2 }],
               (pre.foldl (syncXform cfg s) (s.syncRecords, s.clock)).2 + 1) := by
          rw [syncFold_append, syncXform_create cfg s _ o dj hpick (hpres.trans hfs)]
        simp only [processOne, stateAfter, ho.1, ho.gvm_ok, ho.lookup_uname, hdict, hpick,
          hw, ite_true, apply_value_map_pk, saveRecord_syncRecords,
          saveRecord_clock, saveRecord_nextPk, saveRecord_records, hpres, hfs,
          createSyncRecord, ne_eq, not_true_eq_false, ite_false]
        simp only [e1, e2, e3, e4, e5, e6]
      · by_cases hdn : sr.distinguished_name = o.dn
        · have e2 : (pre ++ [o]).foldl (syncXform cfg s) (s.syncRecords, s.clock)
              = pre.foldl (syncXform cfg s) (s.syncRecords, s.clock) := by
            rw [syncFold_append, syncXform_keep cfg s _ o dj sr _ hpick (hpres.trans hfs) hdn]
          simp only [processOne, stateAfter, ho.1, ho.gvm_ok, ho.lookup_uname, hdict, hpick,
            hw, ite_true, apply_value_map_pk, saveRecord, hpres, hfs, hdn,
            ne_eq, not_true_eq_false, not_false_eq_true, ite_false]
          simp only [e1, e2, e3, e4, e5, e6]
        · have e2 : (pre ++ [o]).foldl (syncXform cfg s) (s.syncRecords, s.clock)
              = ((pre.foldl (syncXform cfg s) (s.syncRecords, s.clock)).1.map (fun s1 =>
                  if s1.object_id = dj.pk then
                    { s1 with distinguished_name := o.dn,
                              updated_at := (pre.foldl (syncXform cfg s) (s.syncRecords, s.clock)).2 }
                  else s1),
                 (pre.foldl (syncXform cfg s) (s.syncRecords, s.clock)).2 + 1) := by
            rw [syncFold_append, syncXform_touch cfg s _ o dj sr _ hpick (hpres.trans hfs) hdn]
          simp only [processOne, stateAfter, ho.1, ho.gvm_ok, ho.lookup_uname, hdict, hpick,
            hw, ite_true, apply_value_map_pk, saveRecord_syncRecords,
            saveRecord_clock, saveRecord_nextPk, saveRecord_records, hpres, hfs, hdn,
            saveSyncDn, ne_eq, not_true_eq_false, not_false_eq_true]
          simp only [e1, e2, e3, e4, e5, e6]
          simp

/-! ### The whole entry loop in closed form -/

theorem stateAfter_nil (cfg : Config) (s : Store) :
    stateAfter cfg s []
      = { store := s, djangoObjects := deriveDjangoObjects cfg s,
          uniquename_dn_map := [], unsaved := [], updated := 0 } := by
  simp only [stateAfter]
  have hrec : s.records.map (postRecord cfg []) = s.records := by
    have : ∀ r ∈ s.records, postRecord cfg [] r = r := by
      intro r _
      rfl
    rw [map_congr_mem this]
    exact List.map_id s.records
  have hdict : (deriveDjangoObjects cfg s).filter
      (fun p => !(decide (p.1 ∈ ([] : List LdapObject).map (ename cfg)))) = deriveDjangoObjects cfg s := by
    rw [List.filter_eq_self]
    intro p _
    simp
  rw [hrec, hdict]
  rfl

theorem processAll_stateAfter (cfg : Config) (s : Store) :
    ∀ (objs pre : List LdapObject) (logs : List LogEvent),
      StoreWF cfg s →
      (∀ o ∈ pre ++ objs, EntryShape cfg o) →
      (((pre ++ objs).map (ename cfg)).Nodup) →
      processAll cfg (stateAfter cfg s pre) logs objs
        = Except.ok (stateAfter cfg s (pre ++ objs), logs) := by
  intro objs
  induction objs with
  | nil =>
    intro pre logs _ _ _
    simp [processAll]
  | cons o os ih =>
    intro pre logs HS hwf hnod
    have ho : EntryShape cfg o := hwf o (by simp)
    have hname : ename cfg o ∉ pre.map (ename cfg) := by
      intro hmem
      have hnod2 : (pre.map (ename cfg) ++ ename cfg o :: os.map (ename cfg)).Nodup := by
        simpa using hnod
      rw [List.nodup_append] at hnod2
      exact hnod2.2.2 hmem (List.mem_cons_self _ _)
    simp only [processAll, processOne_stateAfter cfg s pre o HS ho hname]
    have hstep := ih (pre ++ [o]) (logs ++ []) HS (by simpa using hwf) (by simpa using hnod)
    simpa using hstep

/-! ### Bulk-phase lemmas -/

theorem mkNew_names (f : String) :
    ∀ (vms : List ValueMap) (pk0 : Nat),
      (mkNew pk0 vms).map (fun r => dgetattr r f) = vms.map (fun vm => fieldOf vm f) := by
  intro vms
  induction vms with
  | nil => intro pk0; rfl
  | cons vm rest ih =>
    intro pk0
    simp only [mkNew, List.map_cons, ih]
    rfl

theorem mkNew_length : ∀ (vms : List ValueMap) (pk0 : Nat), (mkNew pk0 vms).length = vms.length := by
  intro vms
  induction vms with
  | nil => intro pk0; rfl
  | cons vm rest ih => intro pk0; simp [mkNew, ih]

theorem filter_mem_of_partition (f : String) (done n1 n2 : List DRecord) (c1 : List UName)
    (hdone : ∀ r ∈ done, dgetattr r f ∉ c1)
    (hn1 : ∀ r ∈ n1, dgetattr r f ∈ c1)
    (hn2 : ∀ r ∈ n2, dgetattr r f ∉ c1) :
    (done ++ (n1 ++ n2)).filter (fun r => decide (dgetattr r f ∈ c1)) = n1 := by
  rw [List.filter_append, List.filter_append]
  rw [List.filter_eq_nil_iff.2 (by intro r hr; simpa using hdone r hr)]
  rw [List.filter_eq_self.2 (by intro r hr; simpa using hn1 r hr)]
  rw [List.filter_eq_nil_iff.2 (by intro r hr; simpa using hn2 r hr)]
  simp

theorem csjGo_partition (f : String) (n : Nat) :
    ∀ (fuel : Nat) (vals : List UName) (done new : List DRecord) (acc : List DRecord),
      vals.length ≤ fuel →
      new.map (fun r => dgetattr r f) = vals →
      (∀ r ∈ done, dgetattr r f ∉ vals) →
      vals.Nodup →
      (chunksOfGo n fuel vals).foldl
        (fun results c => results ++ (done ++ new).filter (fun r => decide (dgetattr r f ∈ c))) acc
      = acc ++ new := by
  intro fuel
  induction fuel with
  | zero =>
    intro vals done new acc hle hmap _ _
    have hv : vals = [] := List.eq_nil_of_length_eq_zero (Nat.le_zero.1 hle)
    subst hv
    have hn : new = [] := List.map_eq_nil_iff.1 hmap
    subst hn
    simp [chunksOfGo]
  | succ fl ih =>
    intro vals done new acc hle hmap hdone hnod
    cases vals with
    | nil =>
      have hn : new = [] := List.map_eq_nil_iff.1 hmap
      subst hn
      simp [chunksOfGo]
    | cons v vs =>
      have hsplit : v :: vs = (v :: vs.take (n - 1)) ++ vs.drop (n - 1) := by
        simp [List.take_append_drop]
      set c1 : List UName := v :: vs.take (n - 1) with hc1
      set rest : List UName := vs.drop (n - 1) with hrest
      have hmap2 : new.map (fun r => dgetattr r f) = c1 ++ rest := by rw [hmap, hsplit]
      have hn1map : (new.take c1.length).map (fun r => dgetattr r f) = c1 := by
        rw [List.map_take, hmap2, List.take_left]
      have hn2map : (new.drop c1.length).map (fun r => dgetattr r f) = rest := by
        rw [List.map_drop, hmap2, List.drop_left]
      have hnodsplit : (c1 ++ rest).Nodup := by rw [← hsplit]; exact hnod
      rw [List.nodup_append] at hnodsplit
      simp only [chunksOfGo, List.foldl_cons]
      have hstep : (done ++ new).filter (fun r => decide (dgetattr r f ∈ c1))
          = new.take c1.length := by
        conv_lhs => rw [show new = new.take c1.length ++ new.drop c1.length from
          (List.take_append_drop _ _).symm]
        apply filter_mem_of_partition
        · intro r hr hmem
          exact hdone r hr (hsplit ▸ List.mem_append.2 (Or.inl hmem))
        · intro r hr
          rw [← hn1map]
          exact List.mem_map_of_mem _ hr
        · intro r hr hmem
          have : dgetattr r f ∈ rest := by
            rw [← hn2map]
            exact List.mem_map_of_mem _ hr
          exact hnodsplit.2.2 hmem this
      rw [hstep]
      have hrecomb : done ++ new = (done ++ new.take c1.length) ++ new.drop c1.length := by
        rw [List.append_assoc, List.take_append_drop]
      rw [show (fun (results : List DRecord) (c : List UName) =>
            results ++ (done ++ new).filter (fun r => decide (dgetattr r f ∈ c)))
          = (fun results c =>
            results ++ ((done ++ new.take c1.length) ++ new.drop c1.length).filter
              (fun r => decide (dgetattr r f ∈ c))) from by rw [← hrecomb]]
      rw [ih rest (done ++ new.take c1.length) (new.drop c1.length) (acc ++ new.take c1.length)
        (by simp only [hrest, List.length_drop]; simp only [List.length_cons] at hle; omega) hn2map ?_ hnodsplit.2.1]
      · rw [List.append_assoc, List.take_append_drop]
      · intro r hr hmem
        rcases List.mem_append.1 hr with h1 | h1
        · exact hdone r h1 (hsplit ▸ List.mem_append.2 (Or.inr hmem))
        · have hc : dgetattr r f ∈ c1 := by
            rw [← hn1map]
            exact List.mem_map_of_mem _ h1
          exact hnodsplit.2.2 hc hmem

theorem chunked_just_saved_spec (f : String) (old new : List DRecord) (vals : List UName)
    (cs : Nat)
    (hold : ∀ r ∈ old, dgetattr r f ∉ vals)
    (hnew : new.map (fun r => dgetattr r f) = vals)
    (hnod : vals.Nodup) :
    chunked_just_saved (old ++ new) f vals cs = new := by
  unfold chunked_just_saved chunksOf
  have h := csjGo_partition f cs vals.length vals old new [] (le_refl _) hnew hold hnod
  simpa using h

theorem stagedPairs_length (cfg : Config) (m : List (UName × String)) :
    ∀ (vms : List ValueMap) (pk0 : Nat), (stagedPairs cfg m pk0 vms).length = vms.length := by
  intro vms
  induction vms with
  | nil => intro pk0; rfl
  | cons vm rest ih => intro pk0; simp [stagedPairs, ih]

theorem pairs_fold (cfg : Config) (m : List (UName × String)) :
    ∀ (vms : List ValueMap) (pk0 : Nat) (acc : List (Nat × String)),
      (∀ vm ∈ vms, (lookupA m (fieldOf vm cfg.unique_name_field)).isSome = true) →
      (mkNew pk0 vms).foldlM (syncPairFor cfg m) acc
        = Except.ok (acc ++ stagedPairs cfg m pk0 vms) := by
  intro vms
  induction vms with
  | nil =>
    intro pk0 acc _
    simp [mkNew, stagedPairs]
    rfl
  | cons vm rest ih =>
    intro pk0 acc hm
    have h0 : (lookupA m (fieldOf vm cfg.unique_name_field)).isSome = true := hm vm (by simp)
    obtain ⟨dn, hdn⟩ := Option.isSome_iff_exists.1 h0
    have hd : dgetattr { pk := pk0, fields := vm, active := true } cfg.unique_name_field
        = fieldOf vm cfg.unique_name_field := rfl
    simp only [mkNew, List.foldlM_cons, syncPairFor, hd, hdn]
    rw [show (do
          let init ← Except.ok (acc ++ [(pk0, dn)])
          List.foldlM (syncPairFor cfg m) init (mkNew (pk0 + 1) rest))
        = List.foldlM (syncPairFor cfg m) (acc ++ [(pk0, dn)]) (mkNew (pk0 + 1) rest) from rfl]
    rw [ih (pk0 + 1) (acc ++ [(pk0, dn)]) (fun vm2 h2 => hm vm2 (by simp [h2]))]
    simp [stagedPairs, hdn]

theorem storeComponents (s1 s2 : Store) (h1 : s1.records = s2.records)
    (h2 : s1.syncRecords = s2.syncRecords) (h3 : s1.nextPk = s2.nextPk)
    (h4 : s1.clock = s2.clock) : s1 = s2 := by
  cases s1
  cases s2
  simp_all

theorem bulkPhase_spec (cfg : Config) (st : RunState)
    (hnames : (st.unsaved.map (fun vm => fieldOf vm cfg.unique_name_field)).Nodup)
    (hfresh : ∀ vm ∈ st.unsaved, fieldOf vm cfg.unique_name_field ∉ recNames cfg st.store)
    (hmap : ∀ vm ∈ st.unsaved,
      (lookupA st.uniquename_dn_map (fieldOf vm cfg.unique_name_field)).isSome = true) :
    bulkPhase cfg st = Except.ok
      { st with store :=
        { records := st.store.records ++ mkNew st.store.nextPk st.unsaved,
          syncRecords := st.store.syncRecords
            ++ mkSyncFrom st.store.clock
                (stagedPairs cfg st.uniquename_dn_map st.store.nextPk st.unsaved),
          nextPk := st.store.nextPk + st.unsaved.length,
          clock := st.store.clock + st.unsaved.length } } := by
  obtain ⟨hbc1, hbc2, hbc3, hbc4⟩ := bulk_create_spec st.unsaved st.store
  have hjs : chunked_just_saved (bulk_create st.store st.unsaved).records cfg.unique_name_field
      (st.unsaved.map (fun u => fieldOf u cfg.unique_name_field)) cfg.bulk_create_chunk_size
      = mkNew st.store.nextPk st.unsaved := by
    rw [hbc1]
    apply chunked_just_saved_spec
    · intro r hr hmem
      obtain ⟨vm, hvm, heq⟩ := List.mem_map.1 hmem
      exact hfresh vm hvm (heq ▸ List.mem_map_of_mem _ hr)
    · exact mkNew_names _ _ _
    · exact hnames
  have hpairs := pairs_fold cfg st.uniquename_dn_map st.unsaved st.store.nextPk [] hmap
  obtain ⟨hsy1, hsy2, hsy3, hsy4⟩ :=
    bulk_create_sync_spec (stagedPairs cfg st.uniquename_dn_map st.store.nextPk st.unsaved)
      (bulk_create st.store st.unsaved)
  simp only [bulkPhase, chunked_bulk_create_eq, hjs, hpairs, List.nil_append,
    chunked_bulk_create_sync_eq]
  have hstore : bulk_create_sync (bulk_create st.store st.unsaved)
      (stagedPairs cfg st.uniquename_dn_map st.store.nextPk st.unsaved)
      = { records := st.store.records ++ mkNew st.store.nextPk st.unsaved,
          syncRecords := st.store.syncRecords
            ++ mkSyncFrom st.store.clock
                (stagedPairs cfg st.uniquename_dn_map st.store.nextPk st.unsaved),
          nextPk := st.store.nextPk + st.unsaved.length,
          clock := st.store.clock + st.unsaved.length } := by
    apply storeComponents
    · rw [hsy3, hbc1]
    · rw [hsy1, hbc3, hbc4]
    · rw [hsy4, hbc2]
    · rw [hsy2, hbc4, stagedPairs_length]
  rw [hstore]


/-! ### `sync` in closed form -/

theorem lookupA_isSome_of_mem {α β : Type} [DecidableEq α] {l : List (α × β)} {k : α}
    (h : k ∈ l.map Prod.fst) : (lookupA l k).isSome = true := by
  induction l with
  | nil => simp at h
  | cons p rest ih =>
    obtain ⟨k1, v1⟩ := p
    by_cases hk : k1 = k
    · simp [lookupA, hk]
    · simp only [List.map_cons, List.mem_cons] at h
      rcases h with h | h
    
      · exact absurd h.symm hk
      · simp only [lookupA, hk, if_false]
        exact ih h

theorem fieldOf_evm {cfg : Config} {o : LdapObject} (h : EntryShape cfg o) :
    fieldOf (evm cfg o) cfg.unique_name_field = ename cfg o := by
  unfold fieldOf
  rw [h.lookup_uname]
  rfl

theorem recNames_stateAfter (cfg : Config) (s : Store) (objs : List LdapObject)
    (HWF : ∀ o ∈ objs, EntryShape cfg o) :
    recNames cfg (stateAfter cfg s objs).store = recNames cfg s := by
  show ((stateAfter cfg s objs).store.records.map (fun r => dgetattr r cfg.unique_name_field)) = _
  simp only [stateAfter]
  rw [List.map_map]
  exact map_congr_mem (fun r _ => postRecord_name cfg objs r HWF)

theorem stagedNames_eq (cfg : Config) (s : Store) (objs : List LdapObject)
    (HWF : ∀ o ∈ objs, EntryShape cfg o) :
    (stagedVMs cfg s objs).map (fun vm => fieldOf vm cfg.unique_name_field)
      = (objs.filter (fun o => !(decide (ename cfg o ∈ recNames cfg s)))).map (ename cfg) := by
  unfold stagedVMs
  rw [List.map_map]
  exact map_congr_mem (fun o ho => fieldOf_evm (HWF o (List.mem_of_mem_filter ho)))

theorem sync_eq (cfg : Config) (s : Store) (objs : List LdapObject)
    (HS : StoreWF cfg s) (HWF : ∀ o ∈ objs, EntryShape cfg o)
    (HN : (objs.map (ename cfg)).Nodup) :
    sync cfg objs s = Except.ok
      { store := removalPhase cfg (afterBulk cfg s objs),
        updated := countUpdated cfg s objs,
        created := (stagedVMs cfg s objs).length,
        uniquename_dn_map := objs.map (fun o => (ename cfg o, o.dn)),
        logs := [] } := by
  have hloop := processAll_stateAfter cfg s objs [] [] HS (by simpa using HWF) (by simpa using HN)
  rw [stateAfter_nil] at hloop
  simp only [List.nil_append] at hloop
  have hnames : ((stateAfter cfg s objs).unsaved.map
      (fun vm => fieldOf vm cfg.unique_name_field)).Nodup := by
    show ((stagedVMs cfg s objs).map (fun vm => fieldOf vm cfg.unique_name_field)).Nodup
    rw [stagedNames_eq cfg s objs HWF]
    exact List.Nodup.sublist (List.Sublist.map _ (List.filter_sublist objs)) HN
  have hfresh : ∀ vm ∈ (stateAfter cfg s objs).unsaved,
      fieldOf vm cfg.unique_name_field ∉ recNames cfg (stateAfter cfg s objs).store := by
    intro vm hvm
    rw [recNames_stateAfter cfg s objs HWF]
    obtain ⟨o, ho, rfl⟩ := List.mem_map.1 hvm
    have homem : o ∈ objs := List.mem_of_mem_filter ho
    rw [fieldOf_evm (HWF o homem)]
    have := List.of_mem_filter ho
    simpa using this
  have hmap : ∀ vm ∈ (stateAfter cfg s objs).unsaved,
      (lookupA (stateAfter cfg s objs).uniquename_dn_map
        (fieldOf vm cfg.unique_name_field)).isSome = true := by
    intro vm hvm
    obtain ⟨o, ho, rfl⟩ := List.mem_map.1 hvm
    have homem : o ∈ objs := List.mem_of_mem_filter ho
    rw [fieldOf_evm (HWF o homem)]
    apply lookupA_isSome_of_mem
    show ename cfg o ∈ (objs.map (fun p => (ename cfg p, p.dn))).map Prod.fst
    rw [List.map_map]
    exact List.mem_map_of_mem _ homem
  have hbulk := bulkPhase_spec cfg (stateAfter cfg s objs) hnames hfresh hmap
  simp only [sync, hloop, hbulk]
  rfl

/-! ### Removal-phase lemmas -/

theorem removalPhase_syncRecords (cfg : Config) (st : RunState) :
    (removalPhase cfg st).syncRecords = st.store.syncRecords := by
  unfold removalPhase
  cases cfg.removal_action with
  | nothing => rfl
  | suspend => by_cases h : cfg.model_has_is_active <;> simp [h]
  | delete => rfl

theorem removalPhase_dict_nil (cfg : Config) (st : RunState) (h : st.djangoObjects = []) :
    removalPhase cfg st = st.store := by
  unfold removalPhase
  rw [h]
  cases cfg.removal_action with
  | nothing => rfl
  | suspend => by_cases h2 : cfg.model_has_is_active <;> simp [h2]
  | delete =>
    simp only [List.map_nil, List.filter_nil]
    have : st.store.records.filter (fun r => !(decide (r.pk ∈ ([] : List Nat))))
        = st.store.records := by
      rw [List.filter_eq_self]
      intro r _
      simp
    rw [this]

theorem removalPhase_records_mem (cfg : Config) (st : RunState) (r : DRecord)
    (hmem : r ∈ st.store.records)
    (hid : ∀ p ∈ st.djangoObjects, p.2.pk ≠ r.pk) :
    r ∈ (removalPhase cfg st).records := by
  unfold removalPhase
  cases cfg.removal_action with
  | nothing => exact hmem
  | suspend => by_cases h : cfg.model_has_is_active <;> simp [h] <;> exact hmem
  | delete =>
    simp only []
    apply List.mem_filter.2
    refine ⟨hmem, ?_⟩
    simp only [Bool.not_eq_true', decide_eq_false_iff_not]
    intro hin
    obtain ⟨r2, hr2, hpk2⟩ := List.mem_map.1 hin
    have hr2f := List.mem_of_mem_filter hr2
    obtain ⟨p, hp, hpe⟩ := List.mem_map.1 hr2f
    exact hid p hp (by rw [hpe, hpk2])

/-! ### Single-entry and empty-store facts -/

theorem stagedVMs_matched_nil (cfg : Config) (s : Store) (o : LdapObject)
    (h : ename cfg o ∈ recNames cfg s) : stagedVMs cfg s [o] = [] := by
  unfold stagedVMs
  simp [List.filter, h]

theorem countUpdated_single (cfg : Config) (s : Store) (o : LdapObject) (r : DRecord)
    (hpick : pickRecord cfg s (ename cfg o) = some r) :
    countUpdated cfg s [o] = if will_model_change (evm cfg o) r then 1 else 0 := by
  unfold countUpdated
  by_cases hw : will_model_change (evm cfg o) r <;> simp [List.filter, hpick, hw]

theorem syncFold_single (cfg : Config) (s : Store) (o : LdapObject) :
    ([o].foldl (syncXform cfg s) (s.syncRecords, s.clock))
      = syncXform cfg s (s.syncRecords, s.clock) o := rfl

theorem StoreWF_empty (cfg : Config) : StoreWF cfg emptyStore := by
  refine ⟨?_, ?_, ?_, ?_, ?_⟩ <;> simp [recNames, emptyStore]

theorem deriveDjangoObjects_empty (cfg : Config) : deriveDjangoObjects cfg emptyStore = [] := rfl

theorem recNames_empty (cfg : Config) : recNames cfg emptyStore = [] := rfl

theorem stagedVMs_empty (cfg : Config) (objs : List LdapObject) :
    stagedVMs cfg emptyStore objs = objs.map (evm cfg) := by
  unfold stagedVMs
  have : objs.filter (fun o => !(decide (ename cfg o ∈ recNames cfg emptyStore))) = objs := by
    rw [List.filter_eq_self]
    intro o _
    simp [recNames_empty]
  rw [this]

theorem syncFold_empty (cfg : Config) :
    ∀ (objs : List LdapObject) (acc : List SyncRecord × Nat),
      objs.foldl (syncXform cfg emptyStore) acc = acc := by
  intro objs
  induction objs with
  | nil => intro acc; rfl
  | cons o os ih =>
    intro acc
    simp only [List.foldl_cons]
    rw [syncXform_none cfg emptyStore acc o rfl, ih]

/-! ### C4: update of a matched record -/

/-- C4: for a remote entry whose unique-field value matches an existing local
record, `sync()` updates the record exactly when some mapped field differs
(`will_model_change`): in that case all fields of the value map are applied to
the record, the result is persisted (it is in the final store), and the
updated-count is incremented to 1; when every mapped field already equals the
mapped value, the record is left untouched in the store and the updated-count
stays 0. -/
theorem C4_matched_update (cfg : Config) (s : Store) (o : LdapObject) (r : DRecord)
    (HS : StoreWF cfg s) (ho : EntryShape cfg o)
    (hr : r ∈ s.records) (hmatch : dgetattr r cfg.unique_name_field = ename cfg o) :
    ∃ res, sync cfg [o] s = Except.ok res ∧
      (will_model_change (evm cfg o) r = false ↔
        ∀ k v, (k, v) ∈ evm cfg o → dgetattr r k = v) ∧
      (will_model_change (evm cfg o) r = true →
        res.updated = 1 ∧ apply_value_map (evm cfg o) r ∈ res.store.records ∧
        ∀ k v, (k, v) ∈ evm cfg o → dgetattr (apply_value_map (evm cfg o) r) k = v) ∧
      (will_model_change (evm cfg o) r = false →
        res.updated = 0 ∧ r ∈ res.store.records) := by
  have hpick : pickRecord cfg s (ename cfg o) = some r := pickRecord_of_name HS.1 hr hmatch
  have hmem : ename cfg o ∈ recNames cfg s := hmatch ▸ List.mem_map_of_mem _ hr
  have hwf1 : ∀ p ∈ [o], EntryShape cfg p := by
    intro p hp
    rw [List.mem_singleton] at hp
    exact hp ▸ ho
  have hs := sync_eq cfg s [o] HS hwf1 (by simp)
  have hpost := postRecord_append_matched cfg [] o r hmatch.symm (by simp)
  simp only [List.nil_append] at hpost
  have hrecords : (afterBulk cfg s [o]).store.records
      = s.records.map (postRecord cfg [o]) := by
    simp only [afterBulk, finalStore, stateAfter, stagedVMs_matched_nil cfg s o hmem, mkNew]
    simp
  have hid : ∀ p ∈ (afterBulk cfg s [o]).djangoObjects, p.2.pk ≠ r.pk := by
    intro p hp hpk
    have hp2 : p ∈ deriveDjangoObjects cfg s := by
      have : (afterBulk cfg s [o]).djangoObjects
          = (deriveDjangoObjects cfg s).filter
              (fun p => !(decide (p.1 ∈ ([o] : List LdapObject).map (ename cfg)))) := rfl
      rw [this] at hp
      exact List.mem_of_mem_filter hp
    have hpred := List.of_mem_filter (show p ∈ List.filter _ (deriveDjangoObjects cfg s) from hp)
    rw [deriveDjangoObjects_eq HS.1] at hp2
    obtain ⟨r2, hr2, hpe⟩ := List.mem_map.1 hp2
    have hr2r : r2 = r := by
      apply List.inj_on_of_nodup_map HS.2.1 hr2 hr
      rw [← hpe] at hpk
      exact hpk
    subst hr2r
    rw [← hpe] at hpred
    simp [hmatch] at hpred
  refine ⟨_, hs, will_model_change_false_iff _ _, ?_, ?_⟩
  · intro hw
    refine ⟨?_, ?_, fun k v hkv => dgetattr_apply_mem ho.vm_keys_nodup hkv⟩
    · show countUpdated cfg s [o] = 1
      rw [countUpdated_single cfg s o r hpick, hw]
      rfl
    · show apply_value_map (evm cfg o) r ∈ (removalPhase cfg (afterBulk cfg s [o])).records
      apply removalPhase_records_mem
      · rw [hrecords]
        have : apply_value_map (evm cfg o) r = postRecord cfg [o] r := by
          rw [hpost, hw]
          simp
        rw [this]
        exact List.mem_map_of_mem _ hr
      · intro p hp
        rw [apply_value_map_pk]
        exact hid p hp
  · intro hw
    refine ⟨?_, ?_⟩
    · show countUpdated cfg s [o] = 0
      rw [countUpdated_single cfg s o r hpick, hw]
      rfl
    · show r ∈ (removalPhase cfg (afterBulk cfg s [o])).records
      apply removalPhase_records_mem
      · rw [hrecords]
        have heq : postRecord cfg [o] r = r := by
          rw [hpost, hw]
          simp
        have hm2 : postRecord cfg [o] r ∈ List.map (postRecord cfg [o]) s.records :=
          List.mem_map_of_mem _ hr
        rwa [heq] at hm2
      · exact hid

/-- Witness for C4: on the concrete store holding `bob` with a stale email and
the remote entry carrying a fresh one, the change test fires, `sync` reports
one update, and the applied record is in the final store. -/
theorem C4_matched_update_witness :
    will_model_change (evm updCfg bobEntry) bobRec = true ∧
    (sync updCfg [bobEntry] bobStore).map
        (fun res => (res.updated,
          decide (apply_value_map (evm updCfg bobEntry) bobRec ∈ res.store.records)))
      = Except.ok (1, true) := by
  refine ⟨by decide, ?_⟩
  obtain ⟨res, h1, _, h3, _⟩ :=
    C4_matched_update updCfg bobStore bobEntry bobRec (by decide) (by decide) (by decide)
      (by decide)
  obtain ⟨hu, hm, _⟩ := h3 (by decide)
  rw [h1]
  simp [Except.map, hu, hm]

/-! ### C9: directory-side rename rewrites the cross-reference row -/

/-- C9: if a local record matched by the current entry is already linked via
exactly one cross-reference row holding a different distinguished name, then
after `sync()` the cross-reference row for that record holds the entry's
distinguished name and its `updated_at` timestamp has advanced past its old
value. -/
theorem C9_rename_rewrites_crossref (cfg : Config) (s : Store) (o : LdapObject)
    (r : DRecord) (sr : SyncRecord)
    (HS : StoreWF cfg s) (ho : EntryShape cfg o)
    (hr : r ∈ s.records) (hmatch : dgetattr r cfg.unique_name_field = ename cfg o)
    (hsr : s.syncRecords.filter (fun x => decide (x.object_id = r.pk)) = [sr])
    (hdn : sr.distinguished_name ≠ o.dn) (hts : sr.updated_at < s.clock) :
    ∃ res, sync cfg [o] s = Except.ok res ∧
      res.store.syncRecords.filter (fun x => decide (x.object_id = r.pk))
        = [{ sr with distinguished_name := o.dn, updated_at := s.clock }] ∧
      ∀ x ∈ res.store.syncRecords.filter (fun x => decide (x.object_id = r.pk)),
        x.distinguished_name = o.dn ∧ sr.updated_at < x.updated_at := by
  have hpick : pickRecord cfg s (ename cfg o) = some r := pickRecord_of_name HS.1 hr hmatch
  have hmem : ename cfg o ∈ recNames cfg s := hmatch ▸ List.mem_map_of_mem _ hr
  have hwf1 : ∀ p ∈ [o], EntryShape cfg p := by
    intro p hp
    rw [List.mem_singleton] at hp
    exact hp ▸ ho
  have hs := sync_eq cfg s [o] HS hwf1 (by simp)
  have hx := syncXform_touch cfg s (s.syncRecords, s.clock) o r sr [] hpick hsr hdn
  have hafter : (stateAfter cfg s [o]).store.syncRecords
      = s.syncRecords.map (fun s1 =>
          if s1.object_id = r.pk then
            { s1 with distinguished_name := o.dn, updated_at := s.clock }
          else s1) := by
    simp only [stateAfter]
    rw [syncFold_single, hx]
  have hfinal : (afterBulk cfg s [o]).store.syncRecords
      = (stateAfter cfg s [o]).store.syncRecords := by
    show (finalStore cfg s [o]).syncRecords = _
    simp only [finalStore, stagedVMs_matched_nil cfg s o hmem]
    simp [stagedPairs, mkSyncFrom]
  have hid : sr.object_id = r.pk := by
    have hmem2 : sr ∈ s.syncRecords.filter (fun x => decide (x.object_id = r.pk)) := by
      rw [hsr]
      exact List.mem_singleton_self sr
    have := List.of_mem_filter hmem2
    simpa using this
  have hfilter : (removalPhase cfg (afterBulk cfg s [o])).syncRecords.filter
      (fun x => decide (x.object_id = r.pk))
      = [{ sr with distinguished_name := o.dn, updated_at := s.clock }] := by
    rw [removalPhase_syncRecords, hfinal, hafter, List.filter_map]
    have hcomp : ((fun x : SyncRecord => decide (x.object_id = r.pk)) ∘
        (fun s1 : SyncRecord => if s1.object_id = r.pk then
            { s1 with distinguished_name := o.dn, updated_at := s.clock }
          else s1))
        = fun x : SyncRecord => decide (x.object_id = r.pk) := by
      funext x
      by_cases hx1 : x.object_id = r.pk <;> simp [Function.comp, hx1]
    rw [hcomp, hsr]
    simp [hid]
  refine ⟨_, hs, hfilter, ?_⟩
  intro x hx2
  have hx3 : x ∈ ({ sr with distinguished_name := o.dn, updated_at := s.clock } :: []) := by
    rw [← hfilter]
    exact hx2
  rw [List.mem_singleton] at hx3
  subst hx3
  exact ⟨rfl, hts⟩

/-- Witness for C9: on the concrete store linking `bob` to the old
distinguished name `cn=bob,ou=old` and the entry reporting `cn=bob`, `sync`
leaves exactly one cross-reference row for `bob`, holding the new
distinguished name with the advanced timestamp. -/
theorem C9_rename_rewrites_crossref_witness :
    (sync updCfg [bobEntry] renStore).map
        (fun res => res.store.syncRecords.filter (fun x => decide (x.object_id = bobRec.pk)))
      = Except.ok [{ renSr with distinguished_name := bobEntry.dn, updated_at := renStore.clock }] ∧
    renSr.updated_at < renStore.clock := by
  obtain ⟨res, h1, h2, _⟩ :=
    C9_rename_rewrites_crossref updCfg renStore bobEntry bobRec renSr (by decide) (by decide)
      (by decide) (by decide) (by decide) (by decide) (by decide)
  refine ⟨?_, by decide⟩
  rw [h1]
  simp [Except.map, h2]

/-! ### Lemmas for the create-from-empty claim -/

theorem lookupA_map_keyval {α β γ : Type} [DecidableEq α] (key : β → α) (val : β → γ) :
    ∀ (rs : List β) (r : β), (rs.map key).Nodup → r ∈ rs →
      lookupA (rs.map (fun x => (key x, val x))) (key r) = some (val r) := by
  intro rs
  induction rs with
  | nil => intro r _ hm; simp at hm
  | cons r0 rest ih =>
    intro r hn hm
    simp only [List.map_cons, List.nodup_cons] at hn
    rcases List.mem_cons.1 hm with h | h
    · subst h
      simp [lookupA]
    · have hne : key r0 ≠ key r := by
        intro he
        exact hn.1 (he ▸ List.mem_map.2 ⟨r, h, rfl⟩)
      simp only [List.map_cons, lookupA, hne, if_false]
      exact ih r hn.2 h

theorem mkNew_pk_ge : ∀ (vms : List ValueMap) (pk0 : Nat) (r : DRecord),
    r ∈ mkNew pk0 vms → pk0 ≤ r.pk := by
  intro vms
  induction vms with
  | nil => intro pk0 r h; simp [mkNew] at h
  | cons vm rest ih =>
    intro pk0 r h
    simp only [mkNew, List.mem_cons] at h
    rcases h with h | h
    · subst h; exact Nat.le_refl _
    · exact Nat.le_of_succ_le (ih (pk0 + 1) r h)

theorem mkSyncFrom_length : ∀ (items : List (Nat × String)) (ck : Nat),
    (mkSyncFrom ck items).length = items.length := by
  intro items
  induction items with
  | nil => intro ck; rfl
  | cons p rest ih =>
    intro ck
    obtain ⟨pk, dn⟩ := p
    simp [mkSyncFrom, ih]

theorem mkSyncStaged_pk_ge (cfg : Config) (m : List (UName × String)) :
    ∀ (vms : List ValueMap) (pk0 ck : Nat) (x : SyncRecord),
      x ∈ mkSyncFrom ck (stagedPairs cfg m pk0 vms) → pk0 ≤ x.object_id := by
  intro vms
  induction vms with
  | nil => intro pk0 ck x h; simp [stagedPairs, mkSyncFrom] at h
  | cons vm rest ih =>
    intro pk0 ck x h
    simp only [stagedPairs, mkSyncFrom, List.mem_cons] at h
    rcases h with h | h
    · subst h; exact Nat.le_refl _
    · exact Nat.le_of_succ_le (ih (pk0 + 1) (ck + 1) x h)

theorem createdPair (cfg : Config) :
    ∀ (objs : List LdapObject) (m : List (UName × String)) (pk0 ck : Nat),
      (∀ o ∈ objs, EntryShape cfg o) →
      (∀ o ∈ objs, lookupA m (ename cfg o) = some o.dn) →
      ∀ o ∈ objs, ∃ r, r ∈ mkNew pk0 (objs.map (evm cfg)) ∧
        r.fields = evm cfg o ∧
        dgetattr r cfg.unique_name_field = ename cfg o ∧
        ((mkSyncFrom ck (stagedPairs cfg m pk0 (objs.map (evm cfg)))).filter
            (fun x => decide (x.object_id = r.pk))).map (fun x => x.distinguished_name)
          = [o.dn] := by
  intro objs
  induction objs with
  | nil => intro m pk0 ck _ _ o ho; simp at ho
  | cons a t ih =>
    intro m pk0 ck HWF hm o ho
    have hhead : fieldOf (evm cfg a) cfg.unique_name_field = ename cfg a :=
      fieldOf_evm (HWF a (List.mem_cons_self a t))
    have hstag : stagedPairs cfg m pk0 ((a :: t).map (evm cfg))
        = (pk0, a.dn) :: stagedPairs cfg m (pk0 + 1) (t.map (evm cfg)) := by
      simp only [List.map_cons, stagedPairs, hhead, hm a (List.mem_cons_self a t),
        Option.getD_some]
    have hsync : mkSyncFrom ck (stagedPairs cfg m pk0 ((a :: t).map (evm cfg)))
        = { object_id := pk0, distinguished_name := a.dn, created_at := ck, updated_at := ck }
          :: mkSyncFrom (ck + 1) (stagedPairs cfg m (pk0 + 1) (t.map (evm cfg))) := by
      rw [hstag]
      rfl
    have hnew : mkNew pk0 ((a :: t).map (evm cfg))
        = { pk := pk0, fields := evm cfg a, active := true }
          :: mkNew (pk0 + 1) (t.map (evm cfg)) := rfl
    rcases List.mem_cons.1 ho with h | h
    · subst h
      have htail : (mkSyncFrom (ck + 1)
            (stagedPairs cfg m (pk0 + 1) (t.map (evm cfg)))).filter
            (fun x => decide (x.object_id = pk0)) = [] := by
        rw [List.filter_eq_nil_iff]
        intro x hx
        have := mkSyncStaged_pk_ge cfg m (t.map (evm cfg)) (pk0 + 1) (ck + 1) x hx
        simp only [decide_eq_true_eq]
        omega
      have hfil0 : ((mkSyncFrom ck (stagedPairs cfg m pk0 ((o :: t).map (evm cfg)))).filter
            (fun x => decide (x.object_id = pk0))).map (fun x => x.distinguished_name)
          = [o.dn] := by
        rw [hsync]
        simp [List.filter_cons, htail]
      exact ⟨{ pk := pk0, fields := evm cfg o, active := true },
        hnew ▸ List.mem_cons_self _ _, rfl, hhead, hfil0⟩
    · obtain ⟨r, hr, hfl, hdg, hfil⟩ :=
        ih m (pk0 + 1) (ck + 1) (fun p hp => HWF p (List.mem_cons_of_mem _ hp))
          (fun p hp => hm p (List.mem_cons_of_mem _ hp)) o h
      have hge := mkNew_pk_ge (t.map (evm cfg)) (pk0 + 1) r hr
      refine ⟨r, ?_, hfl, hdg, ?_⟩
      · rw [hnew]
        exact List.mem_cons_of_mem _ hr
      · rw [hsync]
        have hcond : (decide (({ object_id := pk0, distinguished_name := a.dn, created_at := ck, updated_at := ck } : SyncRecord).object_id = r.pk)) = false := by
          simp only [decide_eq_false_iff_not]
          show ¬ pk0 = r.pk
          omega
        simp only [List.filter_cons, hcond, Bool.false_eq_true, if_false]
        exact hfil

/-! ### C5: creation from an empty store -/

/-- C5: starting from zero local records, a pass over well-formed entries with
pairwise distinct unique-field values creates exactly one record per entry
(and nothing else): the final store holds as many records and as many
cross-reference rows as there are entries, the pass reports that many creates
and zero updates, its uniqueName-to-distinguishedName map lists every entry,
and each entry produced a record carrying its value map whose single
cross-reference row holds that entry's distinguished name. -/
theorem C5_create_from_empty (cfg : Config) (objs : List LdapObject)
    (HWF : ∀ o ∈ objs, EntryShape cfg o)
    (HN : (objs.map (ename cfg)).Nodup) :
    ∃ res, sync cfg objs emptyStore = Except.ok res ∧
      res.created = objs.length ∧ res.updated = 0 ∧
      res.store.records.length = objs.length ∧
      res.store.syncRecords.length = objs.length ∧
      res.uniquename_dn_map = objs.map (fun o => (ename cfg o, o.dn)) ∧
      ∀ o ∈ objs, ∃ r, r ∈ res.store.records ∧
        r.fields = evm cfg o ∧
        dgetattr r cfg.unique_name_field = ename cfg o ∧
        ((res.store.syncRecords.filter (fun x => decide (x.object_id = r.pk))).map
          (fun x => x.distinguished_name)) = [o.dn] := by
  have hs := sync_eq cfg emptyStore objs (StoreWF_empty cfg) HWF HN
  have hdict : (afterBulk cfg emptyStore objs).djangoObjects = [] := by
    simp [afterBulk, stateAfter, deriveDjangoObjects_empty]
  have hstore : removalPhase cfg (afterBulk cfg emptyStore objs)
      = finalStore cfg emptyStore objs := by
    rw [removalPhase_dict_nil cfg _ hdict]
    rfl
  have hrecs : (finalStore cfg emptyStore objs).records = mkNew 0 (objs.map (evm cfg)) := by
    simp only [finalStore, stateAfter, stagedVMs_empty]
    simp [emptyStore]
  have hsyncs : (finalStore cfg emptyStore objs).syncRecords
      = mkSyncFrom 0 (stagedPairs cfg (objs.map (fun o => (ename cfg o, o.dn))) 0
          (objs.map (evm cfg))) := by
    simp only [finalStore, stateAfter, stagedVMs_empty]
    rw [syncFold_empty]
    simp [emptyStore]
  have hm : ∀ o ∈ objs,
      lookupA (objs.map (fun o => (ename cfg o, o.dn))) (ename cfg o) = some o.dn :=
    fun o ho => lookupA_map_keyval (ename cfg) (fun o => o.dn) objs o HN ho
  have hpe : ∀ u, pickRecord cfg emptyStore u = none := fun u => rfl
  refine ⟨_, hs, ?_, ?_, ?_, ?_, rfl, ?_⟩
  · show (stagedVMs cfg emptyStore objs).length = objs.length
    rw [stagedVMs_empty]
    exact List.length_map _ _
  · show countUpdated cfg emptyStore objs = 0
    simp [countUpdated, hpe]
  · show (removalPhase cfg (afterBulk cfg emptyStore objs)).records.length = objs.length
    rw [hstore, hrecs, mkNew_length, List.length_map]
  · show (removalPhase cfg (afterBulk cfg emptyStore objs)).syncRecords.length = objs.length
    rw [hstore, hsyncs, mkSyncFrom_length, stagedPairs_length, List.length_map]
  · intro o ho
    obtain ⟨r, hr, h1, h2, h3⟩ :=
      createdPair cfg objs (objs.map (fun o => (ename cfg o, o.dn))) 0 0 HWF hm o ho
    refine ⟨r, ?_, h1, h2, ?_⟩
    · show r ∈ (removalPhase cfg (afterBulk cfg emptyStore objs)).records
      rw [hstore, hrecs]
      exact hr
    · show ((removalPhase cfg (afterBulk cfg emptyStore objs)).syncRecords.filter
          (fun x => decide (x.object_id = r.pk))).map (fun x => x.distinguished_name) = [o.dn]
      rw [hstore, hsyncs]
      exact h3

/-- Witness for C5: syncing the two entries `bob` and `carol` into the empty
store reports two creates, zero updates, and leaves two records and two
cross-reference rows. -/
theorem C5_create_from_empty_witness :
    (sync updCfg [bobEntry, carolEntry] emptyStore).map
        (fun res => (res.created, res.updated, res.store.records.length,
          res.store.syncRecords.length))
      = Except.ok (2, 0, 2, 2) := by
  obtain ⟨res, h1, hc, hu, hrl, hsl, _, _⟩ :=
    C5_create_from_empty updCfg [bobEntry, carolEntry] (by decide) (by decide)
  rw [h1]
  simp [Except.map, hc, hu, hrl, hsl]

/-! ### C8: a missing mapped attribute skips the entry without aborting -/

theorem processAll_append (cfg : Config) :
    ∀ (xs ys : List LdapObject) (st : RunState) (logs : List LogEvent),
      processAll cfg st logs (xs ++ ys)
        = (match processAll cfg st logs xs with
           | Except.error e => Except.error e
           | Except.ok (st1, logs1) => processAll cfg st1 logs1 ys) := by
  intro xs
  induction xs with
  | nil => intro ys st logs; rfl
  | cons x xs ih =>
    intro ys st logs
    cases h : processOne cfg st x with
    | error e => simp only [List.cons_append, processAll, h]
    | ok p =>
      obtain ⟨st1, evs⟩ := p
      simp only [List.cons_append, processAll, h]
      exact ih ys st1 (logs ++ evs)

theorem processOne_bad (cfg : Config) (st : RunState) (b : LdapObject) (fld : String)
    (hbt : b.type = "searchResEntry")
    (hbe : generate_value_map cfg.attribute_map b.attributes = Except.error fld) :
    processOne cfg st b = Except.ok (st, [(b.dn, fld)]) := by
  simp [processOne, hbt, hbe]

/-- C8: an entry whose raw attributes lack an attribute required by the
correspondence does not abort the run: inserting it anywhere between
well-formed entries leaves the final store, the update count, the create
count and the pass's uniqueName-to-distinguishedName map exactly as in the
run without it, and contributes the single log event pairing the entry's
distinguished name with the missing attribute's name. -/
theorem C8_missing_field_skipped (cfg : Config) (s : Store) (b : LdapObject) (fld : String)
    (pre post : List LdapObject)
    (HS : StoreWF cfg s)
    (HWF : ∀ o ∈ pre ++ post, EntryShape cfg o)
    (HN : ((pre ++ post).map (ename cfg)).Nodup)
    (hbt : b.type = "searchResEntry")
    (hbe : generate_value_map cfg.attribute_map b.attributes = Except.error fld) :
    ∃ res res', sync cfg (pre ++ post) s = Except.ok res ∧
      sync cfg (pre ++ b :: post) s = Except.ok res' ∧
      res'.store = res.store ∧ res'.updated = res.updated ∧
      res'.created = res.created ∧ res'.uniquename_dn_map = res.uniquename_dn_map ∧
      res.logs = [] ∧ res'.logs = [(b.dn, fld)] := by
  have hs := sync_eq cfg s (pre ++ post) HS HWF HN
  have hET := stateAfter_nil cfg s
  have hPA0 : processAll cfg (stateAfter cfg s []) [] (pre ++ post)
      = Except.ok (stateAfter cfg s (pre ++ post), []) := by
    have := processAll_stateAfter cfg s (pre ++ post) [] [] HS
      (by simpa using HWF) (by simpa using HN)
    simpa using this
  have HWFpre : ∀ o ∈ pre, EntryShape cfg o := fun o ho => HWF o (List.mem_append_left _ ho)
  have HNpre : (pre.map (ename cfg)).Nodup := by
    have := HN
    rw [List.map_append, List.nodup_append] at this
    exact this.1
  have hPA1 : processAll cfg (stateAfter cfg s []) [] (pre ++ b :: post)
      = Except.ok (stateAfter cfg s (pre ++ post), [(b.dn, fld)]) := by
    rw [processAll_append]
    have hpre : processAll cfg (stateAfter cfg s []) [] pre
        = Except.ok (stateAfter cfg s pre, []) := by
      have := processAll_stateAfter cfg s pre [] [] HS (by simpa using HWFpre)
        (by simpa using HNpre)
      simpa using this
    rw [hpre]
    simp only [processAll, processOne_bad cfg (stateAfter cfg s pre) b fld hbt hbe,
      List.nil_append]
    exact processAll_stateAfter cfg s post pre [(b.dn, fld)] HS HWF HN
  have h1 : sync cfg (pre ++ post) s
      = (match bulkPhase cfg (stateAfter cfg s (pre ++ post)) with
         | Except.error e => Except.error e
         | Except.ok st2 =>
           Except.ok { store := removalPhase cfg st2, updated := st2.updated,
                       created := st2.unsaved.length,
                       uniquename_dn_map := st2.uniquename_dn_map, logs := [] }) := by
    simp only [sync]
    rw [← hET, hPA0]
  have h2 : sync cfg (pre ++ b :: post) s
      = (match bulkPhase cfg (stateAfter cfg s (pre ++ post)) with
         | Except.error e => Except.error e
         | Except.ok st2 =>
           Except.ok { store := removalPhase cfg st2, updated := st2.updated,
                       created := st2.unsaved.length,
                       uniquename_dn_map := st2.uniquename_dn_map,
                       logs := [(b.dn, fld)] }) := by
    simp only [sync]
    rw [← hET, hPA1]
  cases hbp : bulkPhase cfg (stateAfter cfg s (pre ++ post)) with
  | error e =>
    rw [hbp] at h1
    rw [hs] at h1
    exact absurd h1 (by simp)
  | ok st2 =>
    rw [hbp] at h1 h2
    exact ⟨_, _, h1, h2, rfl, rfl, rfl, rfl, rfl, rfl⟩

/-- Witness for C8: inserting the entry `dave`, which lacks the mapped `mail`
attribute, between `bob` and `carol` leaves the final store identical to the
run without it, and logs exactly the pair of `dave`'s distinguished name and
the missing attribute. -/
theorem C8_missing_field_skipped_witness :
    (sync updCfg ([bobEntry] ++ badEntry :: [carolEntry]) emptyStore).map (fun r => r.logs)
      = Except.ok [(badEntry.dn, "mail")] ∧
    (sync updCfg ([bobEntry] ++ [carolEntry]) emptyStore).map (fun r => r.logs)
      = Except.ok [] ∧
    (sync updCfg ([bobEntry] ++ badEntry :: [carolEntry]) emptyStore).map (fun r => r.store)
      = (sync updCfg ([bobEntry] ++ [carolEntry]) emptyStore).map (fun r => r.store) := by
  obtain ⟨res, res', h1, h2, hst, _, _, _, hlog, hlog'⟩ :=
    C8_missing_field_skipped updCfg emptyStore badEntry "mail" [bobEntry] [carolEntry]
      (by decide) (by decide) (by decide) (by decide) (by decide)
  refine ⟨?_, ?_, ?_⟩
  · rw [h2]
    simp [Except.map, hlog']
  · rw [h1]
    simp [Except.map, hlog]
  · rw [h1, h2]
    simp [Except.map, hst]

/-! ### Lemmas for the idempotence claim -/

theorem mkNew_pk_lt : ∀ (vms : List ValueMap) (pk0 : Nat) (r : DRecord),
    r ∈ mkNew pk0 vms → r.pk < pk0 + vms.length := by
  intro vms
  induction vms with
  | nil => intro pk0 r h; simp [mkNew] at h
  | cons vm rest ih =>
    intro pk0 r h
    simp only [mkNew, List.mem_cons] at h
    rcases h with h | h
    · subst h
      simp only [List.length_cons]
      omega
    · have := ih (pk0 + 1) r h
      simp only [List.length_cons]
      omega

theorem mkNew_pks_nodup : ∀ (vms : List ValueMap) (pk0 : Nat),
    ((mkNew pk0 vms).map (fun r => r.pk)).Nodup := by
  intro vms
  induction vms with
  | nil => intro pk0; simp [mkNew]
  | cons vm rest ih =>
    intro pk0
    simp only [mkNew, List.map_cons, List.nodup_cons]
    refine ⟨?_, ih (pk0 + 1)⟩
    intro hmem
    obtain ⟨r, hr, hpk⟩ := List.mem_map.1 hmem
    have := mkNew_pk_ge rest (pk0 + 1) r hr
    omega

theorem mkSyncStaged_id_lt (cfg : Config) (m : List (UName × String)) :
    ∀ (vms : List ValueMap) (pk0 ck : Nat) (x : SyncRecord),
      x ∈ mkSyncFrom ck (stagedPairs cfg m pk0 vms) → x.object_id < pk0 + vms.length := by
  intro vms
  induction vms with
  | nil => intro pk0 ck x h; simp [stagedPairs, mkSyncFrom] at h
  | cons vm rest ih =>
    intro pk0 ck x h
    simp only [stagedPairs, mkSyncFrom, List.mem_cons] at h
    rcases h with h | h
    · subst h
      simp only [List.length_cons]
      omega
    · have := ih (pk0 + 1) (ck + 1) x h
      simp only [List.length_cons]
      omega

theorem mkSyncStaged_ids_nodup (cfg : Config) (m : List (UName × String)) :
    ∀ (vms : List ValueMap) (pk0 ck : Nat),
      ((mkSyncFrom ck (stagedPairs cfg m pk0 vms)).map (fun x => x.object_id)).Nodup := by
  intro vms
  induction vms with
  | nil => intro pk0 ck; simp [stagedPairs, mkSyncFrom]
  | cons vm rest ih =>
    intro pk0 ck
    simp only [stagedPairs, mkSyncFrom, List.map_cons, List.nodup_cons]
    refine ⟨?_, ih (pk0 + 1) (ck + 1)⟩
    intro hmem
    obtain ⟨x, hx, hid⟩ := List.mem_map.1 hmem
    have := mkSyncStaged_pk_ge cfg m rest (pk0 + 1) (ck + 1) x hx
    omega

theorem mkPair_filter (cfg : Config) (m : List (UName × String)) :
    ∀ (vms : List ValueMap) (pk0 ck : Nat) (vm : ValueMap), vm ∈ vms →
      ∃ r sr, r ∈ mkNew pk0 vms ∧ r.fields = vm ∧ pk0 ≤ r.pk ∧
        (mkSyncFrom ck (stagedPairs cfg m pk0 vms)).filter
            (fun x => decide (x.object_id = r.pk)) = [sr] ∧
        sr.distinguished_name = (lookupA m (fieldOf vm cfg.unique_name_field)).getD "" := by
  intro vms
  induction vms with
  | nil => intro pk0 ck vm h; simp at h
  | cons v rest ih =>
    intro pk0 ck vm hvm
    rcases List.mem_cons.1 hvm with h | h
    · subst h
      refine ⟨{ pk := pk0, fields := vm, active := true },
        { object_id := pk0,
          distinguished_name := (lookupA m (fieldOf vm cfg.unique_name_field)).getD "",
          created_at := ck, updated_at := ck },
        List.mem_cons_self _ _, rfl, Nat.le_refl _, ?_, rfl⟩
      have htail : (mkSyncFrom (ck + 1) (stagedPairs cfg m (pk0 + 1) rest)).filter
          (fun x => decide (x.object_id = pk0)) = [] := by
        rw [List.filter_eq_nil_iff]
        intro x hx
        have := mkSyncStaged_pk_ge cfg m rest (pk0 + 1) (ck + 1) x hx
        simp only [decide_eq_true_eq]
        omega
      simp only [stagedPairs, mkSyncFrom]
      simp [List.filter_cons, htail]
    · obtain ⟨r, sr, hr, hfl, hge, hfil, hdn⟩ := ih (pk0 + 1) (ck + 1) vm h
      refine ⟨r, sr, List.mem_cons_of_mem _ hr, hfl, by omega, ?_, hdn⟩
      simp only [stagedPairs, mkSyncFrom]
      have hcond : (decide ((pk0 : Nat) = r.pk)) = false := by
        simp only [decide_eq_false_iff_not]
        omega
      simp only [List.filter_cons, hcond, Bool.false_eq_true, if_false]
      exact hfil

theorem find?_ename_self (cfg : Config) :
    ∀ (objs : List LdapObject) (o : LdapObject), ((objs.map (ename cfg)).Nodup) → o ∈ objs →
      objs.find? (fun x => decide (ename cfg x = ename cfg o)) = some o := by
  intro objs
  induction objs with
  | nil => intro o _ ho; simp at ho
  | cons a t ih =>
    intro o hn ho
    simp only [List.map_cons, List.nodup_cons] at hn
    by_cases hae : ename cfg a = ename cfg o
    · have hao : a = o := by
        rcases List.mem_cons.1 ho with h | h
        · exact h.symm
        · exact absurd (hae ▸ List.mem_map.2 ⟨o, h, rfl⟩) hn.1
      subst hao
      exact List.find?_cons_of_pos _ (by simp)
    · have ho2 : o ∈ t := by
        rcases List.mem_cons.1 ho with h | h
        · exact absurd (by rw [h]) hae
        · exact h
      rw [List.find?_cons_of_neg _ (by simp [hae])]
      exact ih o hn.2 ho2

theorem syncFold_ids (cfg : Config) (s : Store)
    (HRN : (recNames cfg s).Nodup) (HLT : ∀ r ∈ s.records, r.pk < s.nextPk) :
    ∀ (objs : List LdapObject) (acc : List SyncRecord × Nat),
      ((acc.1.map (fun x => x.object_id)).Nodup) →
      (∀ x ∈ acc.1, x.object_id < s.nextPk) →
      (((objs.foldl (syncXform cfg s) acc).1.map (fun x => x.object_id)).Nodup ∧
        ∀ x ∈ (objs.foldl (syncXform cfg s) acc).1, x.object_id < s.nextPk) := by
  intro objs
  induction objs with
  | nil => intro acc h1 h2; exact ⟨h1, h2⟩
  | cons o os ih =>
    intro acc h1 h2
    simp only [List.foldl_cons]
    cases hp : pickRecord cfg s (ename cfg o) with
    | none =>
      rw [syncXform_none cfg s acc o hp]
      exact ih acc h1 h2
    | some r =>
      have hrlt : r.pk < s.nextPk := HLT r (pickRecord_mem HRN hp).1
      cases hf : acc.1.filter (fun sr => decide (sr.object_id = r.pk)) with
      | nil =>
        rw [syncXform_create cfg s acc o r hp hf]
        have hnotin : ∀ x ∈ acc.1, x.object_id ≠ r.pk := by
          intro x hx
          have := List.filter_eq_nil_iff.1 hf x hx
          simpa using this
        refine ih _ ?_ ?_
        · simp only [List.map_append, List.nodup_append, List.map_cons, List.map_nil]
          refine ⟨h1, by simp, fun a ha hmem2 => ?_⟩
          obtain ⟨x, hx, rfl⟩ := List.mem_map.1 ha
          simp only [List.mem_singleton] at hmem2
          exact hnotin x hx (by simpa using hmem2)
        · intro x hx
          simp only [List.mem_append, List.mem_singleton] at hx
          rcases hx with h | h
          · exact h2 x h
          · subst h
            exact hrlt
      | cons sr0 tl0 =>
        by_cases hdn : sr0.distinguished_name = o.dn
        · rw [syncXform_keep cfg s acc o r sr0 tl0 hp hf hdn]
          exact ih acc h1 h2
        · rw [syncXform_touch cfg s acc o r sr0 tl0 hp hf hdn]
          refine ih _ ?_ ?_
          · rw [List.map_map]
            have hco : ((fun x : SyncRecord => x.object_id) ∘
                (fun s1 : SyncRecord => if s1.object_id = r.pk then
                    { s1 with distinguished_name := o.dn, updated_at := acc.2 }
                  else s1))
                = fun x : SyncRecord => x.object_id := by
              funext x
              by_cases hx : x.object_id = r.pk <;> simp [Function.comp, hx]
            rw [hco]
            exact h1
          · intro x hx
            obtain ⟨y, hy, rfl⟩ := List.mem_map.1 hx
            have hlt2 := h2 y hy
            by_cases hyy : y.object_id = r.pk <;> simp [hyy] <;> omega

theorem finalStore_records (cfg : Config) (s : Store) (objs : List LdapObject) :
    (finalStore cfg s objs).records
      = s.records.map (postRecord cfg objs) ++ mkNew s.nextPk (stagedVMs cfg s objs) := by
  simp only [finalStore, stateAfter]

theorem finalStore_syncRecords (cfg : Config) (s : Store) (objs : List LdapObject) :
    (finalStore cfg s objs).syncRecords
      = (objs.foldl (syncXform cfg s) (s.syncRecords, s.clock)).1
        ++ mkSyncFrom (objs.foldl (syncXform cfg s) (s.syncRecords, s.clock)).2
            (stagedPairs cfg (objs.map (fun o => (ename cfg o, o.dn))) s.nextPk
              (stagedVMs cfg s objs)) := by
  simp only [finalStore, stateAfter]

theorem finalStore_nextPk (cfg : Config) (s : Store) (objs : List LdapObject) :
    (finalStore cfg s objs).nextPk = s.nextPk + (stagedVMs cfg s objs).length := by
  simp only [finalStore, stateAfter]

theorem finalStore_clock (cfg : Config) (s : Store) (objs : List LdapObject) :
    (finalStore cfg s objs).clock
      = (objs.foldl (syncXform cfg s) (s.syncRecords, s.clock)).2
        + (stagedVMs cfg s objs).length := by
  simp only [finalStore, stateAfter]

theorem finalStore_recNames (cfg : Config) (s : Store) (objs : List LdapObject)
    (HWF : ∀ o ∈ objs, EntryShape cfg o) :
    recNames cfg (finalStore cfg s objs)
      = recNames cfg s
        ++ (stagedVMs cfg s objs).map (fun vm => fieldOf vm cfg.unique_name_field) := by
  show (finalStore cfg s objs).records.map (fun r => dgetattr r cfg.unique_name_field) = _
  rw [finalStore_records, List.map_append, mkNew_names]
  congr 1
  rw [List.map_map]
  exact map_congr_mem (fun r _ => postRecord_name cfg objs r HWF)

theorem StoreWF_finalStore (cfg : Config) (s : Store) (objs : List LdapObject)
    (HS : StoreWF cfg s) (HWF : ∀ o ∈ objs, EntryShape cfg o)
    (HN : (objs.map (ename cfg)).Nodup) :
    StoreWF cfg (finalStore cfg s objs) := by
  obtain ⟨H1, H2, H3, H4, H5⟩ := HS
  refine ⟨?_, ?_, ?_, ?_, ?_⟩
  · rw [finalStore_recNames cfg s objs HWF, stagedNames_eq cfg s objs HWF, List.nodup_append]
    refine ⟨H1, List.Nodup.sublist (List.Sublist.map _ (List.filter_sublist objs)) HN, ?_⟩
    intro a ha hmem2
    obtain ⟨o, ho, rfl⟩ := List.mem_map.1 hmem2
    have hpred := List.of_mem_filter ho
    simp only [Bool.not_eq_true', decide_eq_false_iff_not] at hpred
    exact hpred ha
  · rw [finalStore_records, List.map_append, List.nodup_append]
    have hmapeq : (s.records.map (postRecord cfg objs)).map (fun r => r.pk)
        = s.records.map (fun r => r.pk) := by
      rw [List.map_map]
      exact map_congr_mem (fun r _ => postRecord_pk cfg objs r)
    rw [hmapeq]
    refine ⟨H2, mkNew_pks_nodup _ _, ?_⟩
    intro a ha hmem2
    obtain ⟨r, hr, rfl⟩ := List.mem_map.1 ha
    obtain ⟨r2, hr2, hpk2⟩ := List.mem_map.1 hmem2
    have hb1 := mkNew_pk_ge _ _ _ hr2
    have hb2 := H3 r hr
    omega
  · intro r hr
    rw [finalStore_nextPk]
    rw [finalStore_records] at hr
    rcases List.mem_append.1 hr with h | h
    · obtain ⟨r0, hr0, rfl⟩ := List.mem_map.1 h
      rw [postRecord_pk]
      have := H3 r0 hr0
      omega
    · have := mkNew_pk_lt _ _ _ h
      omega
  · rw [finalStore_syncRecords, List.map_append, List.nodup_append]
    obtain ⟨hfn, hfb⟩ := syncFold_ids cfg s H1 H3 objs (s.syncRecords, s.clock) H4 H5
    refine ⟨hfn, mkSyncStaged_ids_nodup _ _ _ _ _, ?_⟩
    intro a ha hmem2
    obtain ⟨x, hx, rfl⟩ := List.mem_map.1 ha
    obtain ⟨y, hy, hid⟩ := List.mem_map.1 hmem2
    have hb1 := mkSyncStaged_pk_ge cfg _ _ _ _ y hy
    have hb2 := hfb x hx
    omega
  · intro sr hsr
    rw [finalStore_nextPk]
    rw [finalStore_syncRecords] at hsr
    obtain ⟨hfn, hfb⟩ := syncFold_ids cfg s H1 H3 objs (s.syncRecords, s.clock) H4 H5
    rcases List.mem_append.1 hsr with h | h
    · have := hfb sr h
      omega
    · have := mkSyncStaged_id_lt cfg _ _ _ _ sr h
      omega

theorem syncFold_matched_dn (cfg : Config) (s : Store) (objs : List LdapObject)
    (o : LdapObject) (r : DRecord)
    (HRN : (recNames cfg s).Nodup) (HPK : (s.records.map (fun r => r.pk)).Nodup)
    (HN : (objs.map (ename cfg)).Nodup) (ho : o ∈ objs)
    (hpick : pickRecord cfg s (ename cfg o) = some r) :
    ∃ sr tl, (objs.foldl (syncXform cfg s) (s.syncRecords, s.clock)).1.filter
        (fun x => decide (x.object_id = r.pk)) = sr :: tl ∧
      sr.distinguished_name = o.dn := by
  obtain ⟨l1, l2, rfl⟩ := List.append_of_mem ho
  have hsplit := HN
  rw [List.map_append, List.nodup_append] at hsplit
  obtain ⟨hn1, hn2, hdisj⟩ := hsplit
  simp only [List.map_cons, List.nodup_cons] at hn2
  have hunt1 : ∀ p ∈ l1, ∀ r2, pickRecord cfg s (ename cfg p) = some r2 → r2.pk ≠ r.pk := by
    intro p hp r2 hp2 hpk
    have he : ename cfg p = ename cfg o := pickRecord_pk_inj HRN HPK hp2 hpick hpk
    refine hdisj (List.mem_map.2 ⟨p, hp, rfl⟩) ?_
    rw [he]
    exact List.mem_map.2 ⟨o, List.mem_cons_self _ _, rfl⟩
  have hunt2 : ∀ p ∈ l2, ∀ r2, pickRecord cfg s (ename cfg p) = some r2 → r2.pk ≠ r.pk := by
    intro p hp r2 hp2 hpk
    have he : ename cfg p = ename cfg o := pickRecord_pk_inj HRN HPK hp2 hpick hpk
    exact hn2.1 (he ▸ List.mem_map.2 ⟨p, hp, rfl⟩)
  rw [List.foldl_append, List.foldl_cons]
  have hstep : ∃ sr tl,
      (syncXform cfg s (l1.foldl (syncXform cfg s) (s.syncRecords, s.clock)) o).1.filter
          (fun x => decide (x.object_id = r.pk)) = sr :: tl ∧
        sr.distinguished_name = o.dn := by
    set A := l1.foldl (syncXform cfg s) (s.syncRecords, s.clock) with hA0
    cases hf : A.1.filter (fun x => decide (x.object_id = r.pk)) with
    | nil =>
      rw [syncXform_create cfg s A o r hpick hf]
      have h9 : (A.1 ++ [({ object_id := r.pk, distinguished_name := o.dn, created_at := A.2, updated_at := A.2 } : SyncRecord)]).filter (fun x => decide (x.object_id = r.pk))
          = [({ object_id := r.pk, distinguished_name := o.dn, created_at := A.2, updated_at := A.2 } : SyncRecord)] := by
        rw [filter_pk_append, hf]
        simp
      exact ⟨_, [], h9, rfl⟩
    | cons sr0 tl0 =>
      by_cases hdn0 : sr0.distinguished_name = o.dn
      · rw [syncXform_keep cfg s A o r sr0 tl0 hpick hf hdn0]
        exact ⟨sr0, tl0, hf, hdn0⟩
      · rw [syncXform_touch cfg s A o r sr0 tl0 hpick hf hdn0]
        have h9 := filter_pk_map_ite A.1 r.pk o.dn A.2
        rw [hf] at h9
        simp only [List.map_cons] at h9
        exact ⟨_, _, h9, rfl⟩
  obtain ⟨sr, tl, hst, hdn⟩ := hstep
  refine ⟨sr, tl, ?_, hdn⟩
  rw [syncFold_filter_untouched cfg s l2
    (syncXform cfg s (l1.foldl (syncXform cfg s) (s.syncRecords, s.clock)) o) r.pk hunt2]
  exact hst

theorem matched_after (cfg : Config) (s : Store) (objs : List LdapObject)
    (HS : StoreWF cfg s) (HWF : ∀ o ∈ objs, EntryShape cfg o)
    (HN : (objs.map (ename cfg)).Nodup) :
    ∀ o ∈ objs, ∃ r2 sr tl,
      pickRecord cfg (finalStore cfg s objs) (ename cfg o) = some r2 ∧
      will_model_change (evm cfg o) r2 = false ∧
      (finalStore cfg s objs).syncRecords.filter (fun x => decide (x.object_id = r2.pk))
        = sr :: tl ∧
      sr.distinguished_name = o.dn := by
  intro o ho
  obtain ⟨H1, H2, H3, H4, H5⟩ := HS
  have HS1 := StoreWF_finalStore cfg s objs ⟨H1, H2, H3, H4, H5⟩ HWF HN
  have hfoldids := syncFold_ids cfg s H1 H3 objs (s.syncRecords, s.clock) H4 H5
  by_cases hold : ename cfg o ∈ recNames cfg s
  · obtain ⟨r, hr, hname⟩ := List.mem_map.1 hold
    have hfind : objs.find?
        (fun x => decide (ename cfg x = dgetattr r cfg.unique_name_field)) = some o := by
      rw [hname]
      exact find?_ename_self cfg objs o HN ho
    have hr2eq : postRecord cfg objs r
        = if will_model_change (evm cfg o) r then apply_value_map (evm cfg o) r else r := by
      simp only [postRecord, hfind]
    have hmemf : postRecord cfg objs r ∈ (finalStore cfg s objs).records := by
      rw [finalStore_records]
      exact List.mem_append_left _ (List.mem_map_of_mem _ hr)
    have hnamef : dgetattr (postRecord cfg objs r) cfg.unique_name_field = ename cfg o := by
      rw [postRecord_name cfg objs r HWF]
      exact hname
    have hpickf : pickRecord cfg (finalStore cfg s objs) (ename cfg o)
        = some (postRecord cfg objs r) := pickRecord_of_name HS1.1 hmemf hnamef
    have hwmc : will_model_change (evm cfg o) (postRecord cfg objs r) = false := by
      rw [hr2eq]
      cases hw : will_model_change (evm cfg o) r with
      | true =>
        rw [if_pos rfl]
        exact (will_model_change_false_iff _ _).2
          (fun k v hkv => dgetattr_apply_mem (HWF o ho).vm_keys_nodup hkv)
      | false =>
        rw [if_neg (by simp)]
        exact hw
    have hpkr : (postRecord cfg objs r).pk = r.pk := postRecord_pk cfg objs r
    obtain ⟨sr, tl, hfil1, hdn1⟩ := syncFold_matched_dn cfg s objs o r H1 H2 HN ho
      (pickRecord_of_name H1 hr hname)
    have hmkfil : (mkSyncFrom (objs.foldl (syncXform cfg s) (s.syncRecords, s.clock)).2
        (stagedPairs cfg (objs.map (fun o => (ename cfg o, o.dn))) s.nextPk
          (stagedVMs cfg s objs))).filter (fun x => decide (x.object_id = r.pk)) = [] := by
      rw [List.filter_eq_nil_iff]
      intro x hx
      have hb1 := mkSyncStaged_pk_ge cfg _ _ _ _ x hx
      have hb2 := H3 r hr
      simp only [decide_eq_true_eq]
      omega
    refine ⟨postRecord cfg objs r, sr, tl, hpickf, hwmc, ?_, hdn1⟩
    rw [hpkr, finalStore_syncRecords, filter_pk_append, hfil1, hmkfil, List.append_nil]
  · have hpass : o ∈ objs.filter (fun o => !(decide (ename cfg o ∈ recNames cfg s))) :=
      List.mem_filter.2 ⟨ho, by simp [hold]⟩
    have hvm : evm cfg o ∈ stagedVMs cfg s objs := List.mem_map_of_mem _ hpass
    obtain ⟨r2, sr, hr2mem, hfields, hge, hfil2, hdn2⟩ :=
      mkPair_filter cfg (objs.map (fun o => (ename cfg o, o.dn))) (stagedVMs cfg s objs)
        s.nextPk (objs.foldl (syncXform cfg s) (s.syncRecords, s.clock)).2 (evm cfg o) hvm
    have hnamef : dgetattr r2 cfg.unique_name_field = ename cfg o := by
      show fieldOf r2.fields cfg.unique_name_field = _
      rw [hfields]
      exact fieldOf_evm (HWF o ho)
    have hmemf : r2 ∈ (finalStore cfg s objs).records := by
      rw [finalStore_records]
      exact List.mem_append_right _ hr2mem
    have hpickf := pickRecord_of_name HS1.1 hmemf hnamef
    have hwmc : will_model_change (evm cfg o) r2 = false := by
      apply (will_model_change_false_iff _ _).2
      intro k v hkv
      show fieldOf r2.fields k = v
      rw [hfields]
      show (lookupA (evm cfg o) k).getD none = v
      rw [lookupA_of_mem_nodup (HWF o ho).vm_keys_nodup hkv]
      rfl
    have hfoldfil : (objs.foldl (syncXform cfg s) (s.syncRecords, s.clock)).1.filter
        (fun x => decide (x.object_id = r2.pk)) = [] := by
      rw [List.filter_eq_nil_iff]
      intro x hx
      have := hfoldids.2 x hx
      simp only [decide_eq_true_eq]
      omega
    have hdn3 : sr.distinguished_name = o.dn := by
      have hlk : lookupA (objs.map (fun o => (ename cfg o, o.dn))) (ename cfg o)
          = some o.dn := lookupA_map_keyval (ename cfg) (fun o => o.dn) objs o HN ho
      rw [hdn2, fieldOf_evm (HWF o ho), hlk]
      rfl
    refine ⟨r2, sr, [], hpickf, hwmc, ?_, hdn3⟩
    rw [finalStore_syncRecords, filter_pk_append, hfoldfil, hfil2]
    rfl

/-! ### C6: idempotence of a second pass -/

/-- C6: running `sync()` a second time immediately after a first run, over the
same remote entry set and with removal policy `NOTHING`, creates zero
additional records, performs zero updates, and leaves the store — in
particular the cross-reference table — exactly as the first run left it. -/
theorem C6_second_run_idempotent (cfg : Config) (s : Store) (objs : List LdapObject)
    (HS : StoreWF cfg s) (HWF : ∀ o ∈ objs, EntryShape cfg o)
    (HN : (objs.map (ename cfg)).Nodup)
    (hpol : cfg.removal_action = RemovalAction.nothing) :
    ∃ res1 res2, sync cfg objs s = Except.ok res1 ∧
      sync cfg objs res1.store = Except.ok res2 ∧
      res2.created = 0 ∧ res2.updated = 0 ∧ res2.store = res1.store := by
  have hs1 := sync_eq cfg s objs HS HWF HN
  have HS1 := StoreWF_finalStore cfg s objs HS HWF HN
  have hkey := matched_after cfg s objs HS HWF HN
  have hrem : ∀ st : RunState, removalPhase cfg st = st.store := by
    intro st
    simp [removalPhase, hpol]
  have hres1store : removalPhase cfg (afterBulk cfg s objs) = finalStore cfg s objs := by
    rw [hrem]
    rfl
  have hs2 := sync_eq cfg (finalStore cfg s objs) objs HS1 HWF HN
  have hcov : ∀ o ∈ objs, ename cfg o ∈ recNames cfg (finalStore cfg s objs) := by
    intro o ho
    obtain ⟨r2, sr, tl, hpick2, _, _, _⟩ := hkey o ho
    have hm := pickRecord_mem HS1.1 hpick2
    rw [← hm.2]
    exact List.mem_map_of_mem _ hm.1
  have hfe : objs.filter
      (fun o => !(decide (ename cfg o ∈ recNames cfg (finalStore cfg s objs)))) = [] := by
    rw [List.filter_eq_nil_iff]
    intro o ho
    simp [hcov o ho]
  have hstaged2 : stagedVMs cfg (finalStore cfg s objs) objs = [] := by
    show (objs.filter
      (fun o => !(decide (ename cfg o ∈ recNames cfg (finalStore cfg s objs))))).map (evm cfg)
        = []
    rw [hfe]
    rfl
  have hupd2 : countUpdated cfg (finalStore cfg s objs) objs = 0 := by
    unfold countUpdated
    rw [List.length_eq_zero, List.filter_eq_nil_iff]
    intro o ho
    obtain ⟨r2, sr, tl, hpick2, hwmc, _, _⟩ := hkey o ho
    simp [hpick2, hwmc]
  have hstep : ∀ o ∈ objs,
      syncXform cfg (finalStore cfg s objs)
          ((finalStore cfg s objs).syncRecords, (finalStore cfg s objs).clock) o
        = ((finalStore cfg s objs).syncRecords, (finalStore cfg s objs).clock) := by
    intro o ho
    obtain ⟨r2, sr, tl, hpick2, _, hfilt, hdn⟩ := hkey o ho
    exact syncXform_keep cfg (finalStore cfg s objs) _ o r2 sr tl hpick2 hfilt hdn
  have hfold2 : ∀ (l : List LdapObject), (∀ p ∈ l, p ∈ objs) →
      l.foldl (syncXform cfg (finalStore cfg s objs))
          ((finalStore cfg s objs).syncRecords, (finalStore cfg s objs).clock)
        = ((finalStore cfg s objs).syncRecords, (finalStore cfg s objs).clock) := by
    intro l
    induction l with
    | nil => intro _; rfl
    | cons a t ih =>
      intro hsub
      simp only [List.foldl_cons, hstep a (hsub a (List.mem_cons_self _ _))]
      exact ih (fun p hp => hsub p (List.mem_cons_of_mem _ hp))
  have hpost2 : ∀ r2 ∈ (finalStore cfg s objs).records, postRecord cfg objs r2 = r2 := by
    intro r2 hr2
    by_cases hname2 : dgetattr r2 cfg.unique_name_field ∈ objs.map (ename cfg)
    · obtain ⟨o, ho, hoe⟩ := List.mem_map.1 hname2
      have hpickr2 : pickRecord cfg (finalStore cfg s objs) (ename cfg o) = some r2 :=
        pickRecord_of_name HS1.1 hr2 hoe.symm
      obtain ⟨r3, sr, tl, hpick3, hwmc3, _, _⟩ := hkey o ho
      have hr23 : r3 = r2 := by
        rw [hpickr2] at hpick3
        exact (Option.some.inj hpick3).symm
      subst hr23
      have hfind : objs.find?
          (fun x => decide (ename cfg x = dgetattr r3 cfg.unique_name_field)) = some o := by
        rw [← hoe]
        exact find?_ename_self cfg objs o HN ho
      simp only [postRecord, hfind, hwmc3, Bool.false_eq_true, if_false]
    · have hfind : objs.find?
          (fun x => decide (ename cfg x = dgetattr r2 cfg.unique_name_field)) = none := by
        rw [List.find?_eq_none]
        intro x hx
        simp only [decide_eq_true_eq]
        intro he
        exact hname2 (he ▸ List.mem_map.2 ⟨x, hx, rfl⟩)
      simp only [postRecord, hfind]
  have hstore2 : finalStore cfg (finalStore cfg s objs) objs = finalStore cfg s objs := by
    apply storeComponents
    · rw [finalStore_records, hstaged2]
      simp only [mkNew, List.append_nil]
      rw [map_congr_mem hpost2]
      exact List.map_id _
    · rw [finalStore_syncRecords, hfold2 objs (fun p hp => hp), hstaged2]
      simp [stagedPairs, mkSyncFrom]
    · rw [finalStore_nextPk, hstaged2]
      simp
    · rw [finalStore_clock, hfold2 objs (fun p hp => hp), hstaged2]
      simp
  have hsync2 : sync cfg objs (removalPhase cfg (afterBulk cfg s objs))
      = sync cfg objs (finalStore cfg s objs) := by
    rw [hres1store]
  refine ⟨_, _, hs1, hsync2.trans hs2, ?_, ?_, ?_⟩
  · show (stagedVMs cfg (finalStore cfg s objs) objs).length = 0
    rw [hstaged2]
    rfl
  · show countUpdated cfg (finalStore cfg s objs) objs = 0
    exact hupd2
  · show removalPhase cfg (afterBulk cfg (finalStore cfg s objs) objs)
        = removalPhase cfg (afterBulk cfg s objs)
    rw [hrem, hrem]
    exact hstore2

/-- Witness for C6: after a first pass over `bob` (stale email) and `carol`
against the store holding `bob`, an immediate second pass over the same
entries creates nothing, updates nothing, and returns the identical store. -/
theorem C6_second_run_idempotent_witness :
    ((sync updCfg [bobEntry, carolEntry] bobStore).bind
        (fun res1 => (sync updCfg [bobEntry, carolEntry] res1.store).map
          (fun res2 => (res2.created, res2.updated, decide (res2.store = res1.store)))))
      = Except.ok (0, 0, true) := by
  obtain ⟨res1, res2, h1, h2, hc, hu, hst⟩ :=
    C6_second_run_idempotent updCfg bobStore [bobEntry, carolEntry] (by decide) (by decide)
      (by decide) rfl
  rw [h1]
  simp [Except.bind, h2, Except.map, hc, hu, hst]
